import Mathlib

/-!
Verification development for the gathr interactive file-selection tree.

The repository's visible source is the terminal renderer
(`src/ui/interface.rs`); the core it draws — the node store, the tri-state
selection engine, the fuzzy filter, the view/navigation state and the stats
aggregator — lives in modules that the renderer imports.  Those modules are
modelled here from the specification (each such definition carries a doc
comment starting with `Modelled from the spec:`), while `create_list_item`,
`draw_file_list` and `format_file_size` are embedded directly from
`src/ui/interface.rs`.
-/

namespace Gathr

/-- Tri-state selection status of a node (`crate::directory::state::SelectionState`):
`Included`, `Excluded`, or `Partial` (a directory whose descendant files are a mix). -/
inductive SelectionState where
  | Included : SelectionState
  | Excluded : SelectionState
  | Partial : SelectionState
deriving DecidableEq, Repr

/-- Modelled from the spec: one filesystem entry of the missing Node Store
module (§3).  `size` is present only for files; `parent` is a plain index
back-reference; `children` is the ordered list of child indices. -/
structure Node where
  name : String
  is_directory : Bool
  size : Option Nat
  state : SelectionState
  parent : Option Nat
  children : List Nat
deriving DecidableEq, Repr

/-- Modelled from the spec: the Node Store is an arena — a flat indexable
store of nodes (§9); a node's stable `index` is its position in the arena. -/
abbrev NodeStore := List Node

/-- Modelled from the spec: `get_node(index) -> Option<Node>` of the Node
Store contract (§4.1); out-of-range lookup silently returns nothing. -/
def get_node (s : NodeStore) (i : Nat) : Option Node := s[i]?

/-- Parent index of node `i`, when `i` is in range and has a parent. -/
def parentOf (s : NodeStore) (i : Nat) : Option Nat := s[i]?.bind Node.parent

/-- Ordered child indices of node `i` (empty when `i` is out of range). -/
def childrenOf (s : NodeStore) (i : Nat) : List Nat :=
  (s[i]?.map Node.children).getD []

/-- Whether node `i` is a directory (`false` when out of range). -/
def isDirAt (s : NodeStore) (i : Nat) : Bool :=
  (s[i]?.map Node.is_directory).getD false

/-- Selection state of node `i`, when `i` is in range. -/
def stateAt (s : NodeStore) (i : Nat) : Option SelectionState :=
  s[i]?.map Node.state

/-- Total version of `stateAt`; out-of-range defaults to `Excluded`. -/
def stateAt' (s : NodeStore) (i : Nat) : SelectionState :=
  (stateAt s i).getD SelectionState.Excluded

/-- Name of node `i` (empty when out of range). -/
def nameAt (s : NodeStore) (i : Nat) : String := (s[i]?.map Node.name).getD ""

/-- Indices of the subtree rooted at `i` (node `i` first, then the subtrees of
its children in stored order), computed with explicit recursion fuel; fuel
`s.length` is enough for any well-formed store.  This is the depth-first
pre-order of the subtree. -/
def subtreeIndices (s : NodeStore) (fuel : Nat) (i : Nat) : List Nat :=
  match fuel with
  | 0 => []
  | Nat.succ f =>
    if i < s.length then
      i :: ((childrenOf s i).map (fun c => subtreeIndices s f c)).flatten
    else []

/-- Modelled from the spec: pre-order of the whole tree — depth-first from the
root (index 0), children in stored order (§4.3, Glossary). -/
def preorder (s : NodeStore) : List Nat := subtreeIndices s s.length 0

/-- Strict ancestors of `i`, nearest first, computed by following `parent`
back-references with explicit fuel. -/
def ancestorsFuel (s : NodeStore) (fuel : Nat) (i : Nat) : List Nat :=
  match fuel with
  | 0 => []
  | Nat.succ f =>
    match parentOf s i with
    | none => []
    | some p => p :: ancestorsFuel s f p

/-- Modelled from the spec: `ancestors_of(index)` of the Node Store contract
(§4.1) — strict ancestors, nearest first, ending at the root. -/
def ancestors_of (s : NodeStore) (i : Nat) : List Nat := ancestorsFuel s s.length i

/-- Descendant file (non-directory) nodes of `i`, including `i` itself when
`i` is a file: the file entries of the subtree of `i` in pre-order. -/
def descFiles (s : NodeStore) (i : Nat) : List Nat :=
  (subtreeIndices s s.length i).filter (fun j => !(isDirAt s j))

/-- Structural well-formedness of the arena (the spec's "valid tree"
precondition, §3 Lifecycle and §7): parents come before their children
(the store is built from a sequence of records whose parent already exists),
the parent/children references agree, child lists have no duplicates, files
have no children, every non-root node has a parent, and the root has none. -/
def WellFormed (s : NodeStore) : Prop :=
  (∀ i < s.length, ∀ p ∈ (parentOf s i).toList, p < i) ∧
  (∀ i < s.length, ∀ c ∈ childrenOf s i, c < s.length ∧ parentOf s c = some i) ∧
  (∀ i < s.length, ∀ p ∈ (parentOf s i).toList, i ∈ childrenOf s p) ∧
  (∀ i < s.length, (childrenOf s i).Nodup) ∧
  (∀ i < s.length, isDirAt s i = false → childrenOf s i = []) ∧
  (∀ i < s.length, 0 < i → (parentOf s i).isSome = true) ∧
  (0 < s.length → parentOf s 0 = none)

/-- `j` lies in the subtree rooted at `i` (reflexive-transitive closure of the
child relation). -/
inductive Desc (s : NodeStore) : Nat → Nat → Prop where
  | refl (i : Nat) : Desc s i i
  | step {i j c : Nat} : Desc s i j → c ∈ childrenOf s j → Desc s i c

/-- Modelled from the spec: the toggle result state — `Included` or `Partial`
toggles to `Excluded`, `Excluded` toggles to `Included` (§4.2). -/
def flipState : SelectionState → SelectionState
  | SelectionState.Excluded => SelectionState.Included
  | _ => SelectionState.Excluded

/-- Overwrite the state of node `j` (no-op when out of range). -/
def setStateAt (s : NodeStore) (j : Nat) (t : SelectionState) : NodeStore :=
  match s[j]? with
  | none => s
  | some n => s.set j { n with state := t }

/-- Overwrite the state of every listed node. -/
def setStates (s : NodeStore) (idxs : List Nat) (t : SelectionState) : NodeStore :=
  idxs.foldl (fun acc j => setStateAt acc j t) s

/-- States of the immediate children of `i`, in stored order. -/
def childStates (s : NodeStore) (i : Nat) : List SelectionState :=
  (childrenOf s i).filterMap (fun c => stateAt s c)

/-- Modelled from the spec: the child-aggregation rule (§4.2) — all children
`Included` gives `Included`, all `Excluded` gives `Excluded`, otherwise
`Partial`. -/
def aggStates (l : List SelectionState) : SelectionState :=
  if l.all (fun x => decide (x = SelectionState.Included)) then SelectionState.Included
  else if l.all (fun x => decide (x = SelectionState.Excluded)) then SelectionState.Excluded
  else SelectionState.Partial

/-- Recompute the state of node `a` from its immediate children's states. -/
def recomputeAt (s : NodeStore) (a : Nat) : NodeStore :=
  setStateAt s a (aggStates (childStates s a))

/-- Modelled from the spec: `toggle(index)` of the Selection Engine (§4.2).
Out-of-range index is a silent no-op.  Otherwise the target's state is
flipped (`Included`/`Partial` to `Excluded`, `Excluded` to `Included`), the
new state is forced onto the whole subtree (downward propagation), and every
strict ancestor's state is recomputed bottom-up from its immediate children
(upward propagation). -/
def toggle (s : NodeStore) (i : Nat) : NodeStore :=
  match s[i]? with
  | none => s
  | some n =>
    let t := flipState n.state
    let s1 := setStates s (subtreeIndices s s.length i) t
    (ancestors_of s1 i).foldl recomputeAt s1

/-- The state-consistency condition at a single node `i`: a directory's state
is `Included` iff all its descendant files are `Included`, `Excluded` iff all
are `Excluded`, `Partial` iff they are a mix; a file's state is never
`Partial`. -/
def consistentAt (s : NodeStore) (i : Nat) : Prop :=
  (isDirAt s i = true →
    (stateAt s i = some SelectionState.Included ↔
      ∀ j ∈ descFiles s i, stateAt s j = some SelectionState.Included) ∧
    (stateAt s i = some SelectionState.Excluded ↔
      ∀ j ∈ descFiles s i, stateAt s j = some SelectionState.Excluded) ∧
    (stateAt s i = some SelectionState.Partial ↔
      (¬ (∀ j ∈ descFiles s i, stateAt s j = some SelectionState.Included) ∧
       ¬ (∀ j ∈ descFiles s i, stateAt s j = some SelectionState.Excluded)))) ∧
  (isDirAt s i = false → ¬ stateAt s i = some SelectionState.Partial)

instance (s : NodeStore) (i : Nat) : Decidable (consistentAt s i) := by
  unfold consistentAt; infer_instance

/-- The spec's state-consistency invariant (§3), at every node of the store. -/
def Consistent (s : NodeStore) : Prop :=
  ∀ i < s.length, consistentAt s i

/-- Every directory node has at least one descendant file. -/
def EveryDirHasFile (s : NodeStore) : Prop :=
  ∀ i < s.length, isDirAt s i = true → descFiles s i ≠ []

instance (s : NodeStore) : Decidable (WellFormed s) := by
  unfold WellFormed; infer_instance

instance (s : NodeStore) : Decidable (Consistent s) := by
  unfold Consistent; infer_instance

instance (s : NodeStore) : Decidable (EveryDirHasFile s) := by
  unfold EveryDirHasFile; infer_instance

/-- A concrete well-formed store used by the witnesses: a root directory with
three files of sizes 100, 200 and 300 bytes, the first and third of which are
`Included` (the root is accordingly `Partial`). -/
def sampleStore : NodeStore :=
  [ { name := "root", is_directory := true, size := none,
      state := SelectionState.Partial, parent := none, children := [1, 2, 3] },
    { name := "f1", is_directory := false, size := some 100,
      state := SelectionState.Included, parent := some 0, children := [] },
    { name := "f2", is_directory := false, size := some 200,
      state := SelectionState.Excluded, parent := some 0, children := [] },
    { name := "f3", is_directory := false, size := some 300,
      state := SelectionState.Included, parent := some 0, children := [] } ]

/-! ### Fuzzy filter (modelled from the spec, §4.3) -/

/-- Modelled from the spec: the names along the path from the root down to
node `i`, computed by following `parent` back-references. -/
def pathNames (s : NodeStore) (fuel : Nat) (i : Nat) : List String :=
  match fuel with
  | 0 => []
  | Nat.succ f =>
    if i < s.length then
      match parentOf s i with
      | none => [nameAt s i]
      | some p => pathNames s f p ++ [nameAt s i]
    else []

/-- Modelled from the spec: `display_path(index)` of the Node Store contract
(§4.1) — the slash-joined path from the root; `get_node_display_path` is the
name under which the renderer imports it (`crate::fuzzy::filter`). -/
def get_node_display_path (s : NodeStore) (i : Nat) : String :=
  String.intercalate "/" (pathNames s s.length i)

/-- Case-folded character list of a string (matching is case-insensitive). -/
def lowerChars (t : String) : List Char := t.data.map Char.toLower

/-- Modelled from the spec: subsequence match — every query character appears
in the path, in order, contiguous or scattered (§4.3). -/
def isSubseq : List Char → List Char → Bool
  | [], _ => true
  | _ :: _, [] => false
  | a :: as, b :: bs => if a = b then isSubseq as bs else isSubseq (a :: as) bs
termination_by _ p => p.length

/-- Contiguous (substring) containment of the query, used by the scoring. -/
def containsSub (q p : List Char) : Bool := p.tails.any (fun t => q.isPrefixOf t)

/-- Offset of the first character at which a match can start. -/
def firstMatchPos (q p : List Char) : Nat :=
  match q with
  | [] => 0
  | a :: _ => p.findIdx (fun c => c = a)

/-- Modelled from the spec: match quality (§4.3) — contiguous matches beat
scattered ones, then earlier match position, then shorter path.  Smaller
triple = better match (exact weights are an implementation choice). -/
def scoreOf (q p : List Char) : Nat × Nat × Nat :=
  (if containsSub q p then 0 else 1, firstMatchPos q p, p.length)

def scoreLe (a b : Nat × Nat × Nat) : Bool :=
  decide (a.1 < b.1) ||
    (decide (a.1 = b.1) && (decide (a.2.1 < b.2.1) ||
      (decide (a.2.1 = b.2.1) && decide (a.2.2 ≤ b.2.2))))

/-- Stable insertion into a score-sorted list: an element goes after every
element with a better-or-equal score, so pre-order is the tie-break. -/
def insertScored (x : Nat × (Nat × Nat × Nat)) :
    List (Nat × (Nat × Nat × Nat)) → List (Nat × (Nat × Nat × Nat))
  | [] => [x]
  | y :: ys => if scoreLe y.2 x.2 then y :: insertScored x ys else x :: y :: ys

/-- Stable insertion sort: items are inserted left to right, each after all
already-placed items with a better-or-equal score. -/
def sortScored (l : List (Nat × (Nat × Nat × Nat))) :
    List (Nat × (Nat × Nat × Nat)) :=
  l.foldl (fun acc x => insertScored x acc) []

/-- Modelled from the spec: `filter(query, node_store)` of the Fuzzy Filter
(§4.3).  The empty query yields the full pre-order; otherwise the nodes whose
display path matches the query as a case-insensitive subsequence, ordered by
match quality, with pre-order as the stable tie-break.  A pure read: the
store is never mutated. -/
def filter (query : String) (s : NodeStore) : List Nat :=
  if query.isEmpty then preorder s
  else
    ((sortScored (((preorder s).filter
        (fun i => isSubseq (lowerChars query)
          (lowerChars (get_node_display_path s i)))).map
      (fun i => (i, scoreOf (lowerChars query)
        (lowerChars (get_node_display_path s i)))))).map Prod.fst)

/-! ### View/Navigation state (modelled from the spec, §4.4) -/

/-- Modelled from the spec: the View/Navigation State (§3) — both fields are
offsets into `visible_items`, not node indices. -/
structure ViewState where
  selected_index : Nat
  scroll_offset : Nat
deriving DecidableEq, Repr

/-- Modelled from the spec: clamp the cursor into `[0, visible_count - 1]`,
or leave it at 0 when `visible_count = 0` (§4.4). -/
def clampCursor (visible_count : Nat) (i : Int) : Nat :=
  if visible_count = 0 then 0
  else min i.toNat (visible_count - 1)

/-- Modelled from the spec: minimal-scroll adjustment — scroll just enough to
bring the cursor back inside `[scroll, scroll + viewport_height)` (§4.4). -/
def adjustScroll (viewport_height sel scroll : Nat) : Nat :=
  if sel < scroll then sel
  else if scroll + viewport_height ≤ sel then sel + 1 - viewport_height
  else scroll

/-- The cursor operations of §4.4 (`end()` is spelled `toEnd`). -/
inductive NavOp where
  | move_cursor (delta : Int)
  | page (delta : Int)
  | home
  | toEnd
deriving DecidableEq, Repr

/-- Modelled from the spec: apply one navigation operation — compute the new
clamped cursor, then adjust the scroll window (§4.4). -/
def applyNav (visible_count viewport_height : Nat) (st : ViewState) :
    NavOp → ViewState
  | NavOp.move_cursor d =>
    let sel := clampCursor visible_count ((st.selected_index : Int) + d)
    { selected_index := sel,
      scroll_offset := adjustScroll viewport_height sel st.scroll_offset }
  | NavOp.page d =>
    let sel := clampCursor visible_count
      ((st.selected_index : Int) + d * (viewport_height : Int))
    { selected_index := sel,
      scroll_offset := adjustScroll viewport_height sel st.scroll_offset }
  | NavOp.home =>
    let sel := clampCursor visible_count 0
    { selected_index := sel,
      scroll_offset := adjustScroll viewport_height sel st.scroll_offset }
  | NavOp.toEnd =>
    let sel := clampCursor visible_count ((visible_count : Int) - 1)
    { selected_index := sel,
      scroll_offset := adjustScroll viewport_height sel st.scroll_offset }

/-! ### Stats aggregator (modelled from the spec, §4.5) -/

/-- Modelled from the spec: the Stats Aggregator's counters (§4.5), as read by
`draw_status_bar` (src/ui/interface.rs:146-155). -/
structure Stats where
  included_files : Nat
  total_files : Nat
  included_size : Nat
  filtered_count : Nat
deriving DecidableEq, Repr

/-- One fold step of the stats walk: directories contribute nothing; every
file counts towards `total_files`, and `Included` files additionally add to
`included_files` and `included_size`. -/
def statsStep (acc : Stats) (n : Node) : Stats :=
  if n.is_directory then acc
  else
    { acc with
      total_files := acc.total_files + 1,
      included_files :=
        acc.included_files +
          (if n.state = SelectionState.Included then 1 else 0),
      included_size :=
        acc.included_size +
          (if n.state = SelectionState.Included then n.size.getD 0 else 0) }

/-- Modelled from the spec: `get_stats` walks the Node Store once and takes
`filtered_count` from the current filtered result set (§4.5). -/
def get_stats (s : NodeStore) (visible_items : List Nat) : Stats :=
  { s.foldl statsStep ⟨0, 0, 0, 0⟩ with filtered_count := visible_items.length }

/-! ### The renderer rows (embedded from src/ui/interface.rs) -/

/-- The content of one rendered list row, as far as the claims reach: which
tree node it shows, the cursor marker, the selection-state marker, and
whether the node lookup succeeded. -/
structure ListItemModel where
  tree_index : Nat
  cursor_indicator : String
  state_indicator : String
  valid : Bool
deriving DecidableEq, Repr

/-- Embedded from `create_list_item` (src/ui/interface.rs:91-144): a missing
node renders as an "Invalid node" row; otherwise the row carries the cursor
marker exactly when `is_selected` holds, plus the tri-state indicator. -/
def create_list_item (s : NodeStore) (tree_index : Nat) (is_selected : Bool) :
    ListItemModel :=
  match s[tree_index]? with
  | some n =>
    { tree_index := tree_index,
      cursor_indicator := if is_selected then "► " else "  ",
      state_indicator :=
        match n.state with
        | SelectionState.Included => "✓"
        | SelectionState.Excluded => "✗"
        | SelectionState.Partial => "◐",
      valid := true }
  | none =>
    { tree_index := tree_index, cursor_indicator := "", state_indicator := "",
      valid := false }

/-- Embedded from `draw_file_list` (src/ui/interface.rs:66-89): enumerate the
visible items, skip `scroll_offset` of them, take the viewport rows
(`area.height.saturating_sub(2)`), and flag as selected the row whose
`display_index + scroll_offset` equals `selected_index` — note that
`.enumerate()` runs before `.skip(...)`, so `display_index` is already the
absolute offset into `visible_items`. -/
def draw_file_list_items (s : NodeStore) (visible_items : List Nat)
    (scroll_offset selected_index height : Nat) : List ListItemModel :=
  ((visible_items.enum.drop scroll_offset).take (height - 2)).map
    (fun di =>
      create_list_item s di.2 (decide (di.1 + scroll_offset = selected_index)))

/-! ### `format_file_size` (embedded from src/ui/interface.rs:278-293) -/

/-- The unit table `UNITS` of `format_file_size`. -/
def fsUnits : List String := ["B", "KB", "MB", "GB", "TB"]

/-- Embedded from the scaling loop of `format_file_size`: divide by 1024.0
while the value is at least 1024.0 and a larger unit exists.  The `f64`
accumulator is modelled as a rational: dividing an IEEE double by 1024 only
decrements its exponent, so the loop arithmetic is exact; the `u64 → f64`
cast is modelled as exact as well (the properties proved below only compare
the value against 1024, and the cast's rounding preserves that comparison). -/
def fsScale (q : ℚ) (u : Nat) : ℚ × Nat :=
  if h : 1024 ≤ q ∧ u < fsUnits.length - 1 then fsScale (q / 1024) (u + 1)
  else (q, u)
termination_by fsUnits.length - 1 - u
decreasing_by
  simp only [fsUnits, List.length_cons, List.length_nil] at h ⊢
  omega

/-- Rounding to one decimal place, ties to even, as Rust's `{:.1}` formatting
does on the exact binary value; rendered as "w.d". -/
def fmtOneDec (x : ℚ) : String :=
  let f : Int := ⌊x * 10⌋
  let r : ℚ := x * 10 - (f : ℚ)
  let n10 : Int :=
    if r < 1/2 then f
    else if 1/2 < r then f + 1
    else if f % 2 = 0 then f else f + 1
  toString (n10 / 10) ++ "." ++ toString (n10 % 10)

/-- Embedded from `format_file_size` (src/ui/interface.rs:278-293): scale the
size, then print either the unscaled integer with "B" or the scaled value to
one decimal with the reached unit. -/
def format_file_size (size : Nat) : String :=
  let p := fsScale (size : ℚ) 0
  if p.2 = 0 then toString size ++ " " ++ fsUnits.getD p.2 ""
  else fmtOneDec p.1 ++ " " ++ fsUnits.getD p.2 ""

/-! ### Basic facts about the accessors -/

lemma exists_getElem?_eq_some {s : NodeStore} {i : Nat} (h : i < s.length) :
    ∃ n, s[i]? = some n :=
  ⟨s[i], List.getElem?_eq_getElem h⟩

lemma getElem?_eq_none_of_le {s : NodeStore} {i : Nat} (h : s.length ≤ i) :
    s[i]? = none :=
  List.getElem?_eq_none_iff.mpr h

lemma lt_length_of_getElem?_eq_some {s : NodeStore} {i : Nat} {n : Node}
    (h : s[i]? = some n) : i < s.length :=
  (List.getElem?_eq_some.mp h).1

lemma childrenOf_of_le {s : NodeStore} {i : Nat} (h : s.length ≤ i) :
    childrenOf s i = [] := by
  simp [childrenOf, getElem?_eq_none_of_le h]

lemma stateAt_isSome {s : NodeStore} {i : Nat} (h : i < s.length) :
    ∃ t, stateAt s i = some t := by
  obtain ⟨n, hn⟩ := exists_getElem?_eq_some h
  exact ⟨n.state, by simp [stateAt, hn]⟩

lemma stateAt'_eq {s : NodeStore} {i : Nat} {t : SelectionState}
    (h : stateAt s i = some t) : stateAt' s i = t := by
  simp [stateAt', h]

lemma stateAt_eq_some_stateAt' {s : NodeStore} {i : Nat} (h : i < s.length) :
    stateAt s i = some (stateAt' s i) := by
  obtain ⟨t, ht⟩ := stateAt_isSome h
  rw [ht, stateAt'_eq ht]

/-! ### Projections of `WellFormed` -/

lemma wf_parent_lt {s : NodeStore} (hwf : WellFormed s) {i p : Nat}
    (hi : i < s.length) (hp : parentOf s i = some p) : p < i := by
  exact hwf.1 i hi p (by simp [hp])

lemma wf_child {s : NodeStore} (hwf : WellFormed s) {i c : Nat}
    (hi : i < s.length) (hc : c ∈ childrenOf s i) :
    c < s.length ∧ parentOf s c = some i :=
  hwf.2.1 i hi c hc

lemma wf_child_gt {s : NodeStore} (hwf : WellFormed s) {i c : Nat}
    (hi : i < s.length) (hc : c ∈ childrenOf s i) : i < c := by
  obtain ⟨hcl, hcp⟩ := wf_child hwf hi hc
  exact wf_parent_lt hwf hcl hcp

lemma wf_parent_child {s : NodeStore} (hwf : WellFormed s) {i p : Nat}
    (hi : i < s.length) (hp : parentOf s i = some p) : i ∈ childrenOf s p := by
  exact hwf.2.2.1 i hi p (by simp [hp])

lemma wf_children_nodup {s : NodeStore} (hwf : WellFormed s) {i : Nat}
    (hi : i < s.length) : (childrenOf s i).Nodup :=
  hwf.2.2.2.1 i hi

lemma wf_file_no_children {s : NodeStore} (hwf : WellFormed s) {i : Nat}
    (hi : i < s.length) (hf : isDirAt s i = false) : childrenOf s i = [] :=
  hwf.2.2.2.2.1 i hi hf

lemma wf_parent_isSome {s : NodeStore} (hwf : WellFormed s) {i : Nat}
    (hi : i < s.length) (h0 : 0 < i) : ∃ p, parentOf s i = some p := by
  have := hwf.2.2.2.2.2.1 i hi h0
  exact Option.isSome_iff_exists.mp this

lemma wf_root_parent {s : NodeStore} (hwf : WellFormed s) (h : 0 < s.length) :
    parentOf s 0 = none :=
  hwf.2.2.2.2.2.2 h

/-- A node with a nonempty child list is a directory. -/
lemma wf_dir_of_child {s : NodeStore} (hwf : WellFormed s) {i c : Nat}
    (hi : i < s.length) (hc : c ∈ childrenOf s i) : isDirAt s i = true := by
  by_contra h
  have hf : isDirAt s i = false := by
    cases hdir : isDirAt s i
    · rfl
    · exact absurd hdir h
  rw [wf_file_no_children hwf hi hf] at hc
  exact List.not_mem_nil c hc

/-! ### The subtree traversal -/

lemma valid_of_child_mem {s : NodeStore} {i c : Nat} (h : c ∈ childrenOf s i) :
    i < s.length := by
  by_contra hge
  rw [childrenOf_of_le (Nat.le_of_not_lt hge)] at h
  exact List.not_mem_nil c h

lemma subtreeIndices_of_le {s : NodeStore} {i : Nat} (h : s.length ≤ i) :
    ∀ f, subtreeIndices s f i = []
  | 0 => rfl
  | Nat.succ f => by simp [subtreeIndices, Nat.not_lt.mpr h]

lemma subtreeIndices_succ {s : NodeStore} {i : Nat} (h : i < s.length) (f : Nat) :
    subtreeIndices s (f + 1) i =
      i :: ((childrenOf s i).map (fun c => subtreeIndices s f c)).flatten := by
  simp [subtreeIndices, h]

/-- The result of `subtreeIndices` does not depend on the fuel, once the fuel
is at least `s.length - i` (for well-formed stores child indices strictly
increase, so the recursion depth from `i` is below `s.length - i`). -/
lemma subtreeIndices_stable {s : NodeStore} (hwf : WellFormed s) :
    ∀ (k i f f' : Nat), s.length - i ≤ k → s.length - i ≤ f → s.length - i ≤ f' →
      subtreeIndices s f i = subtreeIndices s f' i := by
  intro k
  induction k with
  | zero =>
    intro i f f' hk _ _
    have : s.length ≤ i := Nat.le_of_sub_eq_zero (Nat.le_zero.mp hk)
    rw [subtreeIndices_of_le this, subtreeIndices_of_le this]
  | succ k ih =>
    intro i f f' _ hf hf'
    by_cases hi : i < s.length
    · have h1 : 1 ≤ s.length - i := by omega
      obtain ⟨a, rfl⟩ : ∃ a, f = a + 1 := ⟨f - 1, by omega⟩
      obtain ⟨b, rfl⟩ : ∃ b, f' = b + 1 := ⟨f' - 1, by omega⟩
      rw [subtreeIndices_succ hi, subtreeIndices_succ hi]
      congr 1
      congr 1
      apply List.map_congr_left
      intro c hc
      have hgt : i < c := wf_child_gt hwf hi hc
      have hcl : c < s.length := (wf_child hwf hi hc).1
      exact ih c a b (by omega) (by omega) (by omega)
    · have : s.length ≤ i := Nat.le_of_not_lt hi
      rw [subtreeIndices_of_le this, subtreeIndices_of_le this]

/-- Fuel-`s.length` unfolding of the subtree traversal at a valid index. -/
lemma subtree_unfold {s : NodeStore} (hwf : WellFormed s) {i : Nat}
    (hi : i < s.length) :
    subtreeIndices s s.length i =
      i :: ((childrenOf s i).map (fun c => subtreeIndices s s.length c)).flatten := by
  obtain ⟨m, hm⟩ : ∃ m, s.length = m + 1 := ⟨s.length - 1, by omega⟩
  conv_lhs => rw [hm, subtreeIndices_succ hi]
  congr 1
  congr 1
  apply List.map_congr_left
  intro c hc
  have hgt : i < c := wf_child_gt hwf hi hc
  have hcl : c < s.length := (wf_child hwf hi hc).1
  exact subtreeIndices_stable hwf (s.length) c m s.length (by omega) (by omega)
    (by omega)

lemma mem_subtree_bounds {s : NodeStore} (hwf : WellFormed s) :
    ∀ (f i j : Nat), j ∈ subtreeIndices s f i → i ≤ j ∧ j < s.length := by
  intro f
  induction f with
  | zero => intro i j h; exact absurd h (List.not_mem_nil j)
  | succ f ih =>
    intro i j h
    by_cases hi : i < s.length
    · rw [subtreeIndices_succ hi] at h
      rcases List.mem_cons.mp h with rfl | h
      · exact ⟨Nat.le_refl j, hi⟩
      · obtain ⟨l, hl, hj⟩ := List.mem_flatten.mp h
        obtain ⟨c, hc, rfl⟩ := List.mem_map.mp hl
        obtain ⟨hcj, hjl⟩ := ih c j hj
        have : i < c := wf_child_gt hwf hi hc
        exact ⟨by omega, hjl⟩
    · rw [subtreeIndices_of_le (Nat.le_of_not_lt hi)] at h
      exact absurd h (List.not_mem_nil j)

/-! ### The descendant relation -/

lemma desc_trans {s : NodeStore} {a b c : Nat} (h1 : Desc s a b) (h2 : Desc s b c) :
    Desc s a c := by
  induction h2 with
  | refl => exact h1
  | step _ hc ih => exact Desc.step ih hc

lemma desc_of_child {s : NodeStore} {j c : Nat} (hc : c ∈ childrenOf s j) :
    Desc s j c := Desc.step (Desc.refl j) hc

lemma desc_le {s : NodeStore} (hwf : WellFormed s) {a b : Nat}
    (h : Desc s a b) : a ≤ b := by
  induction h with
  | refl => exact Nat.le_refl _
  | step _ hc ih =>
    have hj := valid_of_child_mem hc
    have := wf_child_gt hwf hj hc
    omega

lemma desc_of_mem_subtree {s : NodeStore} :
    ∀ (f i j : Nat), j ∈ subtreeIndices s f i → Desc s i j := by
  intro f
  induction f with
  | zero => intro i j h; exact absurd h (List.not_mem_nil j)
  | succ f ih =>
    intro i j h
    by_cases hi : i < s.length
    · rw [subtreeIndices_succ hi] at h
      rcases List.mem_cons.mp h with rfl | h
      · exact Desc.refl j
      · obtain ⟨l, hl, hj⟩ := List.mem_flatten.mp h
        obtain ⟨c, hc, rfl⟩ := List.mem_map.mp hl
        exact desc_trans (desc_of_child hc) (ih c j hj)
    · rw [subtreeIndices_of_le (Nat.le_of_not_lt hi)] at h
      exact absurd h (List.not_mem_nil j)

/-- Children of any member of a subtree list are again members. -/
lemma child_mem_subtree {s : NodeStore} (hwf : WellFormed s) :
    ∀ (k i : Nat), s.length - i ≤ k →
      ∀ j c, j ∈ subtreeIndices s s.length i → c ∈ childrenOf s j →
        c ∈ subtreeIndices s s.length i := by
  intro k
  induction k with
  | zero =>
    intro i hk j c hj _
    have : s.length ≤ i := by omega
    rw [subtreeIndices_of_le this] at hj
    exact absurd hj (List.not_mem_nil j)
  | succ k ih =>
    intro i hk j c hj hc
    have hi : i < s.length := by
      by_contra hge
      rw [subtreeIndices_of_le (Nat.le_of_not_lt hge)] at hj
      exact absurd hj (List.not_mem_nil j)
    rw [subtree_unfold hwf hi] at hj ⊢
    rcases List.mem_cons.mp hj with rfl | hj
    · -- `c` is a direct child of `i`: it heads its own subtree in the flatten
      have hcl : c < s.length := (wf_child hwf hi hc).1
      refine List.mem_cons.mpr (Or.inr (List.mem_flatten.mpr
        ⟨subtreeIndices s s.length c, List.mem_map.mpr ⟨c, hc, rfl⟩, ?_⟩))
      rw [subtree_unfold hwf hcl]
      exact List.mem_cons_self c _
    · obtain ⟨l, hl, hjl⟩ := List.mem_flatten.mp hj
      obtain ⟨c', hc', rfl⟩ := List.mem_map.mp hl
      have hgt : i < c' := wf_child_gt hwf hi hc'
      have := ih c' (by omega) j c hjl hc
      exact List.mem_cons.mpr (Or.inr (List.mem_flatten.mpr
        ⟨subtreeIndices s s.length c', List.mem_map.mpr ⟨c', hc', rfl⟩, this⟩))

lemma mem_subtree_of_desc {s : NodeStore} (hwf : WellFormed s) {i j : Nat}
    (h : Desc s i j) (hi : i < s.length) :
    j ∈ subtreeIndices s s.length i := by
  induction h with
  | refl =>
    rw [subtree_unfold hwf hi]
    exact List.mem_cons_self i _
  | step _ hc ih => exact child_mem_subtree hwf s.length _ (by omega) _ _ ih hc

/-- Membership in the fuel-`s.length` subtree list is exactly the descendant
relation (for valid roots). -/
lemma mem_subtree_iff_desc {s : NodeStore} (hwf : WellFormed s) {i j : Nat}
    (hi : i < s.length) :
    j ∈ subtreeIndices s s.length i ↔ Desc s i j :=
  ⟨desc_of_mem_subtree s.length i j, fun h => mem_subtree_of_desc hwf h hi⟩

/-- If `b` is an ancestor-or-self of `c` and `c`'s parent is `j`, then either
`b = c` or `b` is an ancestor-or-self of `j` (parent references are unique). -/
lemma desc_parent_split {s : NodeStore} (hwf : WellFormed s) {b c : Nat}
    (h : Desc s b c) :
    ∀ j, parentOf s c = some j → b = c ∨ Desc s b j := by
  induction h with
  | refl => intro j _; exact Or.inl rfl
  | step hd hc _ =>
    intro j hp
    have hj := valid_of_child_mem hc
    have hpc := (wf_child hwf hj hc).2
    rw [hpc] at hp
    exact Or.inr (Option.some_injective _ hp ▸ hd)

/-- Two ancestors-or-selves of the same node are comparable: the ancestor
chain of any node is linear. -/
lemma desc_connected {s : NodeStore} (hwf : WellFormed s) {a j : Nat}
    (h : Desc s a j) : ∀ b, Desc s b j → Desc s a b ∨ Desc s b a := by
  induction h with
  | refl => intro b hb; exact Or.inr hb
  | step hd hc ih =>
    rename_i j₀ c
    intro b hb
    have hj₀ : j₀ < s.length := valid_of_child_mem hc
    have hpc : parentOf s c = some j₀ := (wf_child hwf hj₀ hc).2
    rcases desc_parent_split hwf hb j₀ hpc with rfl | hbj
    · exact Or.inl (Desc.step hd hc)
    · exact ih b hbj

lemma desc_antisymm {s : NodeStore} (hwf : WellFormed s) {a b : Nat}
    (h1 : Desc s a b) (h2 : Desc s b a) : a = b :=
  Nat.le_antisymm (desc_le hwf h1) (desc_le hwf h2)

/-- Sibling subtrees are disjoint. -/
lemma sibling_subtrees_disjoint {s : NodeStore} (hwf : WellFormed s)
    {i c c' : Nat} (hi : i < s.length) (hc : c ∈ childrenOf s i)
    (hc' : c' ∈ childrenOf s i) (hne : c ≠ c') {j : Nat}
    (hj : j ∈ subtreeIndices s s.length c)
    (hj' : j ∈ subtreeIndices s s.length c') : False := by
  have hd : Desc s c j := desc_of_mem_subtree s.length c j hj
  have hd' : Desc s c' j := desc_of_mem_subtree s.length c' j hj'
  rcases desc_connected hwf hd c' hd' with h | h
  · -- c is an ancestor-or-self of c'; since c ≠ c', c sits above c's parent i
    have hpc' : parentOf s c' = some i := (wf_child hwf hi hc').2
    rcases desc_parent_split hwf h i hpc' with rfl | hdi
    · exact hne rfl
    · have h1 : c ≤ i := desc_le hwf hdi
      have h2 : i < c := wf_child_gt hwf hi hc
      omega
  · have hpc : parentOf s c = some i := (wf_child hwf hi hc).2
    rcases desc_parent_split hwf h i hpc with rfl | hdi
    · exact hne rfl
    · have h1 : c' ≤ i := desc_le hwf hdi
      have h2 : i < c' := wf_child_gt hwf hi hc'
      omega

/-- The subtree list of any node has no duplicates. -/
lemma subtree_nodup {s : NodeStore} (hwf : WellFormed s) :
    ∀ (k i : Nat), s.length - i ≤ k → (subtreeIndices s s.length i).Nodup := by
  intro k
  induction k with
  | zero =>
    intro i hk
    rw [subtreeIndices_of_le (by omega)]
    exact List.nodup_nil
  | succ k ih =>
    intro i hk
    by_cases hi : i < s.length
    · rw [subtree_unfold hwf hi]
      refine List.nodup_cons.mpr ⟨?_, ?_⟩
      · intro hmem
        obtain ⟨l, hl, hil⟩ := List.mem_flatten.mp hmem
        obtain ⟨c, hc, rfl⟩ := List.mem_map.mp hl
        have h1 := (mem_subtree_bounds hwf s.length c i hil).1
        have h2 : i < c := wf_child_gt hwf hi hc
        omega
      · rw [List.nodup_flatten]
        constructor
        · intro l hl
          obtain ⟨c, hc, rfl⟩ := List.mem_map.mp hl
          have h2 : i < c := wf_child_gt hwf hi hc
          exact ih c (by omega)
        · rw [List.pairwise_map]
          have hnd := wf_children_nodup hwf hi
          refine List.Pairwise.imp_of_mem ?_ hnd
          intro c c' hc hc' hne
          intro j hj hj'
          exact sibling_subtrees_disjoint hwf hi hc hc' hne hj hj' 
    · rw [subtreeIndices_of_le (Nat.le_of_not_lt hi)]
      exact List.nodup_nil

/-- Every valid index is a descendant of the root. -/
lemma desc_root {s : NodeStore} (hwf : WellFormed s) :
    ∀ i < s.length, Desc s 0 i := by
  intro i
  induction i using Nat.strong_induction_on with
  | _ i ih =>
    intro hi
    rcases Nat.eq_zero_or_pos i with rfl | hpos
    · exact Desc.refl 0
    · obtain ⟨p, hp⟩ := wf_parent_isSome hwf hi hpos
      have hplt : p < i := wf_parent_lt hwf hi hp
      have hd : Desc s 0 p := ih p hplt (by omega)
      exact Desc.step hd (wf_parent_child hwf hi hp)

/-- The pre-order of a well-formed store lists every valid index exactly once
and nothing else. -/
lemma count_preorder {s : NodeStore} (hwf : WellFormed s) (i : Nat) :
    (preorder s).count i = if i < s.length then 1 else 0 := by
  by_cases hi : i < s.length
  · rw [if_pos hi]
    have hmem : i ∈ preorder s :=
      mem_subtree_of_desc hwf (desc_root hwf i hi) (by omega)
    have hnd : (preorder s).Nodup := subtree_nodup hwf s.length 0 (by omega)
    exact List.count_eq_one_of_mem hnd hmem
  · rw [if_neg hi]
    refine List.count_eq_zero.mpr ?_
    intro hmem
    exact hi (mem_subtree_bounds hwf s.length 0 i hmem).2

/-! ### Ancestors -/

lemma ancestorsFuel_mem_lt {s : NodeStore} (hwf : WellFormed s) :
    ∀ (f i : Nat), i < s.length →
      ∀ a ∈ ancestorsFuel s f i, a < i ∧ a < s.length := by
  intro f
  induction f with
  | zero => intro i _ a ha; exact absurd ha (List.not_mem_nil a)
  | succ f ih =>
    intro i hi a ha
    rw [ancestorsFuel] at ha
    cases hp : parentOf s i with
    | none => rw [hp] at ha; exact absurd ha (List.not_mem_nil a)
    | some p =>
      rw [hp] at ha
      have hplt : p < i := wf_parent_lt hwf hi hp
      rcases List.mem_cons.mp ha with rfl | ha
      · exact ⟨hplt, by omega⟩
      · obtain ⟨h1, h2⟩ := ih p (by omega) a ha
        exact ⟨by omega, h2⟩

lemma ancestorsFuel_pairwise_gt {s : NodeStore} (hwf : WellFormed s) :
    ∀ (f i : Nat), i < s.length →
      List.Pairwise (fun x y => y < x) (ancestorsFuel s f i) := by
  intro f
  induction f with
  | zero => intro i _; exact List.Pairwise.nil
  | succ f ih =>
    intro i hi
    rw [ancestorsFuel]
    cases hp : parentOf s i with
    | none => exact List.Pairwise.nil
    | some p =>
      have hplt : p < i := wf_parent_lt hwf hi hp
      refine List.pairwise_cons.mpr ⟨?_, ih p (by omega)⟩
      intro a ha
      exact (ancestorsFuel_mem_lt hwf f p (by omega) a ha).1

lemma ancestorsFuel_succ_none {s : NodeStore} {i f : Nat}
    (hp : parentOf s i = none) : ancestorsFuel s (f + 1) i = [] := by
  rw [ancestorsFuel, hp]

lemma ancestorsFuel_succ_some {s : NodeStore} {i p f : Nat}
    (hp : parentOf s i = some p) :
    ancestorsFuel s (f + 1) i = p :: ancestorsFuel s f p := by
  rw [ancestorsFuel, hp]

/-- The ancestor list does not depend on the fuel once the fuel is at least
the starting index (parents strictly decrease). -/
lemma ancestorsFuel_stable {s : NodeStore} (hwf : WellFormed s) :
    ∀ (i f f' : Nat), i ≤ f → i ≤ f' →
      ancestorsFuel s f i = ancestorsFuel s f' i := by
  intro i
  induction i using Nat.strong_induction_on with
  | _ i ih =>
    intro f f' hf hf'
    have hnone : parentOf s i = none → ∀ g, ancestorsFuel s g i = [] := by
      intro hp g
      cases g with
      | zero => rfl
      | succ g => exact ancestorsFuel_succ_none hp
    by_cases hi : i < s.length
    · rcases Nat.eq_zero_or_pos i with rfl | hpos
      · have hp : parentOf s 0 = none := wf_root_parent hwf (by omega)
        rw [hnone hp f, hnone hp f']
      · obtain ⟨a, rfl⟩ : ∃ a, f = a + 1 := ⟨f - 1, by omega⟩
        obtain ⟨b, rfl⟩ : ∃ b, f' = b + 1 := ⟨f' - 1, by omega⟩
        cases hp : parentOf s i with
        | none => rw [ancestorsFuel_succ_none hp, ancestorsFuel_succ_none hp]
        | some p =>
          have hplt : p < i := wf_parent_lt hwf hi hp
          rw [ancestorsFuel_succ_some hp, ancestorsFuel_succ_some hp,
            ih p hplt a b (by omega) (by omega)]
    · have hp : parentOf s i = none := by
        simp [parentOf, getElem?_eq_none_of_le (Nat.le_of_not_lt hi)]
      rw [hnone hp f, hnone hp f']

lemma ancestors_of_none {s : NodeStore} {i : Nat} (hp : parentOf s i = none) :
    ancestors_of s i = [] := by
  rw [ancestors_of]
  cases hl : s.length with
  | zero => rfl
  | succ m => rw [ancestorsFuel, hp]

lemma ancestors_of_unfold {s : NodeStore} (hwf : WellFormed s) {i p : Nat}
    (hi : i < s.length) (hp : parentOf s i = some p) :
    ancestors_of s i = p :: ancestors_of s p := by
  have hplt : p < i := wf_parent_lt hwf hi hp
  rw [ancestors_of, ancestors_of]
  obtain ⟨m, hm⟩ : ∃ m, s.length = m + 1 := ⟨s.length - 1, by omega⟩
  conv_lhs => rw [hm, ancestorsFuel_succ_some hp]
  rw [ancestorsFuel_stable hwf p m s.length (by omega) (by omega)]

lemma mem_ancestors_lt {s : NodeStore} (hwf : WellFormed s) {i a : Nat}
    (hi : i < s.length) (ha : a ∈ ancestors_of s i) : a < i ∧ a < s.length :=
  ancestorsFuel_mem_lt hwf s.length i hi a ha

/-- Membership in the ancestor list is exactly the strict-ancestor relation. -/
lemma mem_ancestors_iff {s : NodeStore} (hwf : WellFormed s) :
    ∀ i, i < s.length → ∀ a, (a ∈ ancestors_of s i ↔ (Desc s a i ∧ a ≠ i)) := by
  intro i
  induction i using Nat.strong_induction_on with
  | _ i ih =>
    intro hi a
    constructor
    · intro ha
      cases hp : parentOf s i with
      | none => rw [ancestors_of_none hp] at ha; exact absurd ha (List.not_mem_nil a)
      | some p =>
        have hplt : p < i := wf_parent_lt hwf hi hp
        have hdpi : Desc s p i := Desc.step (Desc.refl p) (wf_parent_child hwf hi hp)
        rw [ancestors_of_unfold hwf hi hp] at ha
        rcases List.mem_cons.mp ha with rfl | ha
        · exact ⟨hdpi, by omega⟩
        · obtain ⟨hd, _⟩ := (ih p hplt (by omega) a).mp ha
          have halt : a < p := (mem_ancestors_lt hwf (by omega) ha).1
          exact ⟨desc_trans hd hdpi, by omega⟩
    · rintro ⟨hd, hne⟩
      cases hd with
      | refl => exact absurd rfl hne
      | step hd' hc =>
        rename_i j
        have hj : j < s.length := valid_of_child_mem hc
        have hp : parentOf s i = some j := (wf_child hwf hj hc).2
        rw [ancestors_of_unfold hwf hi hp]
        by_cases haj : a = j
        · exact haj ▸ List.mem_cons_self a _
        · have hjlt : j < i := wf_parent_lt hwf hi hp
          exact List.mem_cons.mpr (Or.inr ((ih j hjlt hj a).mpr ⟨hd', haj⟩))

/-- Every member of the ancestor list has at least one child. -/
lemma ancestors_have_children {s : NodeStore} (hwf : WellFormed s) :
    ∀ (f i : Nat), i < s.length → ∀ a ∈ ancestorsFuel s f i,
      childrenOf s a ≠ [] := by
  intro f
  induction f with
  | zero => intro i _ a ha; exact absurd ha (List.not_mem_nil a)
  | succ f ih =>
    intro i hi a ha
    rw [ancestorsFuel] at ha
    cases hp : parentOf s i with
    | none => rw [hp] at ha; exact absurd ha (List.not_mem_nil a)
    | some p =>
      rw [hp] at ha
      have hplt : p < i := wf_parent_lt hwf hi hp
      rcases List.mem_cons.mp ha with rfl | ha
      · intro hnil
        have := wf_parent_child hwf hi hp
        rw [hnil] at this
        exact List.not_mem_nil i this
      · exact ih p (by omega) a ha

/-! ### Shape preservation

Toggling only rewrites `state` fields, so everything structural — length,
parents, children, directory flags — is unchanged.  `SameShape` captures
exactly that, and every structural notion above transports along it. -/

/-- Two stores with identical structure (only node states may differ). -/
def SameShape (s s' : NodeStore) : Prop :=
  s.length = s'.length ∧
  ∀ j, parentOf s j = parentOf s' j ∧ childrenOf s j = childrenOf s' j ∧
    isDirAt s j = isDirAt s' j

lemma sameShape_refl (s : NodeStore) : SameShape s s :=
  ⟨rfl, fun _ => ⟨rfl, rfl, rfl⟩⟩

lemma sameShape_trans {s s' s'' : NodeStore} (h1 : SameShape s s')
    (h2 : SameShape s' s'') : SameShape s s'' :=
  ⟨h1.1.trans h2.1, fun j =>
    ⟨(h1.2 j).1.trans (h2.2 j).1, (h1.2 j).2.1.trans (h2.2 j).2.1,
     (h1.2 j).2.2.trans (h2.2 j).2.2⟩⟩

lemma setStateAt_length (s : NodeStore) (j : Nat) (t : SelectionState) :
    (setStateAt s j t).length = s.length := by
  rw [setStateAt]
  cases h : s[j]? with
  | none => rfl
  | some n => simp

lemma setStateAt_getElem? (s : NodeStore) (j : Nat) (t : SelectionState)
    (k : Nat) :
    (setStateAt s j t)[k]? =
      if k = j ∧ j < s.length then (s[k]?.map fun n => { n with state := t })
      else s[k]? := by
  rw [setStateAt]
  cases h : s[j]? with
  | none =>
    have hj : s.length ≤ j := List.getElem?_eq_none_iff.mp h
    rw [if_neg]
    omega
  | some n =>
    have hj : j < s.length := lt_length_of_getElem?_eq_some h
    by_cases hk : k = j
    · subst hk
      rw [if_pos ⟨rfl, hj⟩, h, List.getElem?_set_eq_of_lt _ hj]
      rfl
    · rw [if_neg (fun hand => hk hand.1), List.getElem?_set_ne (fun he => hk he.symm)]

lemma setStateAt_shape (s : NodeStore) (j : Nat) (t : SelectionState) :
    SameShape s (setStateAt s j t) := by
  refine ⟨(setStateAt_length s j t).symm, fun k => ?_⟩
  have h := setStateAt_getElem? s j t k
  by_cases hk : k = j ∧ j < s.length
  · rw [if_pos hk] at h
    refine ⟨?_, ?_, ?_⟩ <;>
      simp [parentOf, childrenOf, isDirAt, h] <;>
      cases s[k]? <;> rfl
  · rw [if_neg hk] at h
    exact ⟨by rw [parentOf, parentOf, h], by rw [childrenOf, childrenOf, h],
      by rw [isDirAt, isDirAt, h]⟩

lemma setStateAt_stateAt (s : NodeStore) (j : Nat) (t : SelectionState)
    (k : Nat) :
    stateAt (setStateAt s j t) k =
      if k = j ∧ j < s.length then some t else stateAt s k := by
  have h := setStateAt_getElem? s j t k
  by_cases hk : k = j ∧ j < s.length
  · rw [if_pos hk] at h
    obtain ⟨n, hn⟩ := exists_getElem?_eq_some (hk.1 ▸ hk.2)
    rw [stateAt, h, if_pos hk, hn]
    rfl
  · rw [if_neg hk] at h
    rw [stateAt, h, if_neg hk, stateAt]

lemma setStates_shape (t : SelectionState) :
    ∀ (idxs : List Nat) (s : NodeStore), SameShape s (setStates s idxs t) := by
  intro idxs
  induction idxs with
  | nil => intro s; exact sameShape_refl s
  | cons j rest ih =>
    intro s
    rw [setStates, List.foldl_cons]
    exact sameShape_trans (setStateAt_shape s j t) (ih (setStateAt s j t))

lemma setStates_stateAt (t : SelectionState) :
    ∀ (idxs : List Nat) (s : NodeStore) (k : Nat),
      stateAt (setStates s idxs t) k =
        if k ∈ idxs ∧ k < s.length then some t else stateAt s k := by
  intro idxs
  induction idxs with
  | nil => intro s k; simp [setStates]
  | cons j rest ih =>
    intro s k
    rw [setStates, List.foldl_cons]
    have hrw : List.foldl (fun acc j => setStateAt acc j t) (setStateAt s j t) rest =
        setStates (setStateAt s j t) rest t := rfl
    rw [hrw, ih (setStateAt s j t) k, setStateAt_length, setStateAt_stateAt]
    by_cases hmem : k ∈ rest ∧ k < s.length
    · rw [if_pos hmem, if_pos ⟨List.mem_cons.mpr (Or.inr hmem.1), hmem.2⟩]
    · rw [if_neg hmem]
      by_cases hkj : k = j ∧ j < s.length
      · have hkl : k < s.length := hkj.1 ▸ hkj.2
        rw [if_pos hkj, if_pos ⟨List.mem_cons.mpr (Or.inl hkj.1), hkl⟩]
      · rw [if_neg hkj, if_neg]
        intro hand
        rcases List.mem_cons.mp hand.1 with rfl | hmem'
        · exact hkj ⟨rfl, hand.2⟩
        · exact hmem ⟨hmem', hand.2⟩

lemma recomputeAt_shape (s : NodeStore) (a : Nat) :
    SameShape s (recomputeAt s a) := setStateAt_shape s a _

lemma recomputeAt_stateAt (s : NodeStore) (a k : Nat) :
    stateAt (recomputeAt s a) k =
      if k = a ∧ a < s.length then some (aggStates (childStates s a))
      else stateAt s k := setStateAt_stateAt s a _ k

/-! Transport of structural notions along `SameShape`. -/

lemma SameShape.subtree_eq {s s' : NodeStore} (h : SameShape s s') :
    ∀ (f i : Nat), subtreeIndices s f i = subtreeIndices s' f i := by
  intro f
  induction f with
  | zero => intro i; rfl
  | succ f ih =>
    intro i
    by_cases hi : i < s.length
    · have hi' : i < s'.length := h.1 ▸ hi
      rw [subtreeIndices_succ hi, subtreeIndices_succ hi', (h.2 i).2.1]
      congr 1
      congr 1
      exact List.map_congr_left (fun c _ => ih c)
    · have hi' : ¬ i < s'.length := h.1 ▸ hi
      rw [subtreeIndices_of_le (Nat.le_of_not_lt hi),
        subtreeIndices_of_le (Nat.le_of_not_lt hi')]

lemma SameShape.ancestorsFuel_eq {s s' : NodeStore} (h : SameShape s s') :
    ∀ (f i : Nat), ancestorsFuel s f i = ancestorsFuel s' f i := by
  intro f
  induction f with
  | zero => intro i; rfl
  | succ f ih =>
    intro i
    rw [ancestorsFuel, ancestorsFuel, (h.2 i).1]
    cases parentOf s' i with
    | none => rfl
    | some p => simp only []; rw [ih p]

lemma SameShape.ancestors_eq {s s' : NodeStore} (h : SameShape s s') (i : Nat) :
    ancestors_of s i = ancestors_of s' i := by
  rw [ancestors_of, ancestors_of, h.1, h.ancestorsFuel_eq s'.length i]

lemma SameShape.descFiles_eq {s s' : NodeStore} (h : SameShape s s') (i : Nat) :
    descFiles s i = descFiles s' i := by
  rw [descFiles, descFiles, h.1, h.subtree_eq s'.length i]
  exact List.filter_congr (fun j _ => by rw [(h.2 j).2.2])

lemma SameShape.wellFormed {s s' : NodeStore} (h : SameShape s s')
    (hwf : WellFormed s) : WellFormed s' := by
  obtain ⟨hlen, hj⟩ := h
  obtain ⟨w1, w2, w3, w4, w5, w6, w7⟩ := hwf
  refine ⟨?_, ?_, ?_, ?_, ?_, ?_, ?_⟩
  · intro i hi p hp
    exact w1 i (hlen ▸ hi) p (by rw [(hj i).1]; exact hp)
  · intro i hi c hc
    have := w2 i (hlen ▸ hi) c (by rw [(hj i).2.1]; exact hc)
    exact ⟨hlen ▸ this.1, by rw [← (hj c).1]; exact this.2⟩
  · intro i hi p hp
    have := w3 i (hlen ▸ hi) p (by rw [(hj i).1]; exact hp)
    rw [← (hj p).2.1]
    exact this
  · intro i hi
    rw [← (hj i).2.1]
    exact w4 i (hlen ▸ hi)
  · intro i hi hf
    rw [← (hj i).2.1]
    exact w5 i (hlen ▸ hi) (by rw [(hj i).2.2]; exact hf)
  · intro i hi h0
    rw [← (hj i).1]
    exact w6 i (hlen ▸ hi) h0
  · intro h0
    rw [← (hj 0).1]
    exact w7 (hlen ▸ h0)

/-! ### Characterisation of `toggle` -/

lemma childStates_congr {s s' : NodeStore} {a : Nat}
    (hch : childrenOf s a = childrenOf s' a)
    (hst : ∀ c ∈ childrenOf s a, stateAt s c = stateAt s' c) :
    childStates s a = childStates s' a := by
  rw [childStates, childStates, ← hch]
  exact List.filterMap_congr (fun c hc => hst c hc)

lemma foldl_recompute_shape :
    ∀ (as : List Nat) (s : NodeStore), SameShape s (as.foldl recomputeAt s) := by
  intro as
  induction as with
  | nil => intro s; exact sameShape_refl s
  | cons a rest ih =>
    intro s
    rw [List.foldl_cons]
    exact sameShape_trans (recomputeAt_shape s a) (ih (recomputeAt s a))

lemma foldl_recompute_stateAt_not_mem :
    ∀ (as : List Nat) (s : NodeStore) (j : Nat), j ∉ as →
      stateAt (as.foldl recomputeAt s) j = stateAt s j := by
  intro as
  induction as with
  | nil => intro s j _; rfl
  | cons a rest ih =>
    intro s j hj
    rw [List.foldl_cons,
      ih (recomputeAt s a) j (fun h => hj (List.mem_cons.mpr (Or.inr h))),
      recomputeAt_stateAt]
    rw [if_neg]
    intro hand
    exact hj (List.mem_cons.mpr (Or.inl hand.1))

/-- Folding `recomputeAt` over a strictly decreasing list of directory indices
(each with all children above it) leaves every processed node's state equal to
the aggregate of its children's *final* states: processing is bottom-up, and
once a node is processed nothing at or above its children changes again. -/
lemma foldl_recompute_spec :
    ∀ (as : List Nat) (s : NodeStore),
      List.Pairwise (fun x y => y < x) as →
      (∀ a ∈ as, a < s.length) →
      (∀ a ∈ as, ∀ c ∈ childrenOf s a, a < c) →
      ∀ a ∈ as, stateAt (as.foldl recomputeAt s) a =
        some (aggStates (childStates (as.foldl recomputeAt s) a)) := by
  intro as
  induction as with
  | nil => intro s _ _ _ a ha; exact absurd ha (List.not_mem_nil a)
  | cons a rest ih =>
    intro s hpair hlt hch b hb
    have hpr : List.Pairwise (fun x y => y < x) rest := (List.pairwise_cons.mp hpair).2
    have hrlt : ∀ x ∈ rest, x < a := (List.pairwise_cons.mp hpair).1
    have hshape1 : SameShape s (recomputeAt s a) := recomputeAt_shape s a
    have hshape2 : SameShape (recomputeAt s a) (rest.foldl recomputeAt (recomputeAt s a)) :=
      foldl_recompute_shape rest (recomputeAt s a)
    have hanotr : a ∉ rest := fun h => by have := hrlt a h; omega
    rw [List.foldl_cons]
    rcases List.mem_cons.mp hb with rfl | hbr
    · -- the head: its state was recomputed first and never changes again,
      -- and neither do its children's states
      have hbl : b < s.length := hlt b (List.mem_cons_self b rest)
      rw [foldl_recompute_stateAt_not_mem rest (recomputeAt s b) b hanotr,
        recomputeAt_stateAt, if_pos ⟨rfl, hbl⟩]
      congr 1
      congr 1
      refine childStates_congr ((sameShape_trans hshape1 hshape2).2 b).2.1 ?_
      intro c hc
      have hcb : b < c := hch b (List.mem_cons_self b rest) c hc
      have hcnr : c ∉ rest := fun h => by have := hrlt c h; omega
      rw [foldl_recompute_stateAt_not_mem rest (recomputeAt s b) c hcnr,
        recomputeAt_stateAt, if_neg (fun hand => by omega)]
    · have hlt' : ∀ x ∈ rest, x < (recomputeAt s a).length := by
        intro x hx
        rw [← hshape1.1]
        exact hlt x (List.mem_cons.mpr (Or.inr hx))
      have hch' : ∀ x ∈ rest, ∀ c ∈ childrenOf (recomputeAt s a) x, x < c := by
        intro x hx c hc
        rw [← (hshape1.2 x).2.1] at hc
        exact hch x (List.mem_cons.mpr (Or.inr hx)) c hc
      exact ih (recomputeAt s a) hpr hlt' hch' b hbr

lemma flipState_binary (st : SelectionState) :
    flipState st ≠ SelectionState.Partial := by
  cases st <;> simp [flipState]

/-- Full characterisation of a valid toggle: the shape is unchanged, the whole
subtree of `i` carries the flipped state, every strict ancestor's state is
the aggregate of its children's final states, and every other node keeps its
old state. -/
lemma toggle_char {s : NodeStore} (hwf : WellFormed s) {i : Nat} {n : Node}
    (hn : s[i]? = some n) :
    SameShape s (toggle s i) ∧
    (∀ j ∈ subtreeIndices s s.length i,
      stateAt (toggle s i) j = some (flipState n.state)) ∧
    (∀ j, j ∉ subtreeIndices s s.length i → j ∉ ancestors_of s i →
      stateAt (toggle s i) j = stateAt s j) ∧
    (∀ a ∈ ancestors_of s i,
      stateAt (toggle s i) a = some (aggStates (childStates (toggle s i) a))) := by
  have hi : i < s.length := lt_length_of_getElem?_eq_some hn
  set t := flipState n.state with ht
  set sub := subtreeIndices s s.length i with hsub
  set s1 := setStates s sub t with hs1
  have htog : toggle s i = (ancestors_of s1 i).foldl recomputeAt s1 := by
    rw [toggle, hn]
  have hshape1 : SameShape s s1 := setStates_shape t sub s
  have hancs : ancestors_of s1 i = ancestors_of s i := (hshape1.ancestors_eq i).symm
  have hshape2 : SameShape s1 (toggle s i) := by
    rw [htog]
    exact foldl_recompute_shape (ancestors_of s1 i) s1
  have hshape : SameShape s (toggle s i) := sameShape_trans hshape1 hshape2
  have hforward : ∀ a ∈ ancestors_of s i, a < i := by
    intro a ha
    exact (mem_ancestors_lt hwf hi ha).1
  have hsubge : ∀ j ∈ sub, i ≤ j ∧ j < s.length := by
    intro j hj
    exact mem_subtree_bounds hwf s.length i j hj
  refine ⟨hshape, ?_, ?_, ?_⟩
  · -- subtree nodes carry the flipped state
    intro j hj
    obtain ⟨hij, hjl⟩ := hsubge j hj
    have hjnota : j ∉ ancestors_of s i := fun h => by have := hforward j h; omega
    rw [htog, foldl_recompute_stateAt_not_mem _ s1 j (hancs ▸ hjnota), hs1,
      setStates_stateAt, if_pos ⟨hj, hjl⟩]
  · -- untouched nodes keep their state
    intro j hjs hja
    rw [htog, foldl_recompute_stateAt_not_mem _ s1 j (hancs ▸ hja), hs1,
      setStates_stateAt, if_neg (fun hand => hjs hand.1)]
  · -- ancestors aggregate their children's final states
    intro a ha
    have hpair : List.Pairwise (fun x y => y < x) (ancestors_of s1 i) := by
      rw [hancs]
      exact ancestorsFuel_pairwise_gt hwf s.length i hi
    have hlt : ∀ x ∈ ancestors_of s1 i, x < s1.length := by
      intro x hx
      rw [← hshape1.1]
      exact (mem_ancestors_lt hwf hi (hancs ▸ hx)).2
    have hch : ∀ x ∈ ancestors_of s1 i, ∀ c ∈ childrenOf s1 x, x < c := by
      intro x hx c hc
      rw [← (hshape1.2 x).2.1] at hc
      exact wf_child_gt hwf (mem_ancestors_lt hwf hi (hancs ▸ hx)).2 hc
    have := foldl_recompute_spec (ancestors_of s1 i) s1 hpair hlt hch a (hancs ▸ ha)
    rw [htog]
    exact this

/-! ### The aggregate algebra -/

lemma aggStates_eq_included_iff (l : List SelectionState) :
    aggStates l = SelectionState.Included ↔
      ∀ x ∈ l, x = SelectionState.Included := by
  rw [aggStates]
  split_ifs with h1 h2 <;>
    simp only [List.all_eq_true, decide_eq_true_eq] at * <;> tauto

lemma aggStates_eq_excluded_iff (l : List SelectionState) :
    aggStates l = SelectionState.Excluded ↔
      ((¬ ∀ x ∈ l, x = SelectionState.Included) ∧
        ∀ x ∈ l, x = SelectionState.Excluded) := by
  rw [aggStates]
  split_ifs with h1 h2 <;>
    simp only [List.all_eq_true, decide_eq_true_eq] at * <;> tauto

lemma aggStates_eq_partial_iff (l : List SelectionState) :
    aggStates l = SelectionState.Partial ↔
      ((¬ ∀ x ∈ l, x = SelectionState.Included) ∧
        ¬ ∀ x ∈ l, x = SelectionState.Excluded) := by
  rw [aggStates]
  split_ifs with h1 h2 <;>
    simp only [List.all_eq_true, decide_eq_true_eq] at * <;> tauto

lemma aggStates_eq_excluded_iff_of_ne_nil {l : List SelectionState} (hne : l ≠ []) :
    aggStates l = SelectionState.Excluded ↔
      ∀ x ∈ l, x = SelectionState.Excluded := by
  rw [aggStates_eq_excluded_iff]
  constructor
  · exact And.right
  · intro hE
    refine ⟨?_, hE⟩
    obtain ⟨x, hx⟩ := List.exists_mem_of_ne_nil l hne
    intro hI
    have h1 := hI x hx
    have h2 := hE x hx
    rw [h1] at h2
    exact SelectionState.noConfusion h2

lemma aggStates_single (x : SelectionState) : aggStates [x] = x := by
  cases x <;> rfl

lemma aggStates_const {l : List SelectionState} (hne : l ≠ [])
    {t : SelectionState} (ht : t ≠ SelectionState.Partial)
    (h : ∀ x ∈ l, x = t) : aggStates l = t := by
  cases t with
  | Included => exact (aggStates_eq_included_iff l).mpr h
  | Excluded => exact (aggStates_eq_excluded_iff_of_ne_nil hne).mpr h
  | Partial => exact absurd rfl ht

lemma aggStates_congr {l1 l2 : List SelectionState}
    (hI : (∀ x ∈ l1, x = SelectionState.Included) ↔
      (∀ x ∈ l2, x = SelectionState.Included))
    (hE : (∀ x ∈ l1, x = SelectionState.Excluded) ↔
      (∀ x ∈ l2, x = SelectionState.Excluded)) :
    aggStates l1 = aggStates l2 := by
  cases h : aggStates l2 with
  | Included =>
    exact (aggStates_eq_included_iff l1).mpr
      (hI.mpr ((aggStates_eq_included_iff l2).mp h))
  | Excluded =>
    obtain ⟨h1, h2⟩ := (aggStates_eq_excluded_iff l2).mp h
    exact (aggStates_eq_excluded_iff l1).mpr ⟨fun hh => h1 (hI.mp hh), hE.mpr h2⟩
  | Partial =>
    obtain ⟨h1, h2⟩ := (aggStates_eq_partial_iff l2).mp h
    exact (aggStates_eq_partial_iff l1).mpr
      ⟨fun hh => h1 (hI.mp hh), fun hh => h2 (hE.mp hh)⟩

/-- Aggregating block-aggregates equals aggregating the flattened blocks, as
long as every block is nonempty ("all included" and "all excluded" both
distribute over nonempty blocks). -/
lemma aggStates_flatten (blocks : List (List SelectionState))
    (hne : ∀ b ∈ blocks, b ≠ []) :
    aggStates (blocks.map aggStates) = aggStates blocks.flatten := by
  refine aggStates_congr ?_ ?_
  · constructor
    · intro h x hx
      obtain ⟨b, hb, hxb⟩ := List.mem_flatten.mp hx
      have : aggStates b = SelectionState.Included :=
        h (aggStates b) (List.mem_map.mpr ⟨b, hb, rfl⟩)
      exact (aggStates_eq_included_iff b).mp this x hxb
    · intro h y hy
      obtain ⟨b, hb, rfl⟩ := List.mem_map.mp hy
      refine (aggStates_eq_included_iff b).mpr ?_
      intro x hxb
      exact h x (List.mem_flatten.mpr ⟨b, hb, hxb⟩)
  · constructor
    · intro h x hx
      obtain ⟨b, hb, hxb⟩ := List.mem_flatten.mp hx
      have : aggStates b = SelectionState.Excluded :=
        h (aggStates b) (List.mem_map.mpr ⟨b, hb, rfl⟩)
      exact (aggStates_eq_excluded_iff_of_ne_nil (hne b hb)).mp this x hxb
    · intro h y hy
      obtain ⟨b, hb, rfl⟩ := List.mem_map.mp hy
      refine (aggStates_eq_excluded_iff_of_ne_nil (hne b hb)).mpr ?_
      intro x hxb
      exact h x (List.mem_flatten.mpr ⟨b, hb, hxb⟩)

/-! ### Consistency: functional form and preservation by `toggle` -/

/-- Under the iff-form invariant, an empty descendant-file list is impossible
for a directory (its state would have to be `Included` and `Excluded` at
once). -/
lemma consistent_dirs_have_files {s : NodeStore} (hc : Consistent s) :
    EveryDirHasFile s := by
  intro i hi hdir hnil
  obtain ⟨hiffs, _⟩ := hc i hi
  obtain ⟨hI, hE, _⟩ := hiffs hdir
  have hallI : ∀ j ∈ descFiles s i, stateAt s j = some SelectionState.Included := by
    rw [hnil]; intro j hj; exact absurd hj (List.not_mem_nil j)
  have hallE : ∀ j ∈ descFiles s i, stateAt s j = some SelectionState.Excluded := by
    rw [hnil]; intro j hj; exact absurd hj (List.not_mem_nil j)
  have h1 := hI.mpr hallI
  have h2 := hE.mpr hallE
  rw [h1] at h2
  exact SelectionState.noConfusion (Option.some_injective _ h2)

lemma mem_descFiles {s : NodeStore} {d j : Nat} (hj : j ∈ descFiles s d) :
    j ∈ subtreeIndices s s.length d ∧ isDirAt s j = false := by
  obtain ⟨h1, h2⟩ := List.mem_filter.mp hj
  exact ⟨h1, by simpa using h2⟩

lemma descFiles_valid {s : NodeStore} (hwf : WellFormed s) {d j : Nat}
    (hj : j ∈ descFiles s d) : j < s.length :=
  (mem_subtree_bounds hwf s.length d j (mem_descFiles hj).1).2

/-- Translation between the iff-form invariant at a directory and the
functional statement that its state is the aggregate of its descendant files'
states. -/
lemma stateAt_eq_agg_iff {s : NodeStore} (hwf : WellFormed s) {d : Nat}
    (hne : descFiles s d ≠ []) {t : SelectionState}
    (hst : stateAt s d = some t) :
    ((stateAt s d = some SelectionState.Included ↔
        ∀ j ∈ descFiles s d, stateAt s j = some SelectionState.Included) ∧
      (stateAt s d = some SelectionState.Excluded ↔
        ∀ j ∈ descFiles s d, stateAt s j = some SelectionState.Excluded) ∧
      (stateAt s d = some SelectionState.Partial ↔
        (¬ (∀ j ∈ descFiles s d, stateAt s j = some SelectionState.Included) ∧
         ¬ (∀ j ∈ descFiles s d, stateAt s j = some SelectionState.Excluded)))) ↔
    stateAt s d = some (aggStates ((descFiles s d).map (stateAt' s))) := by
  have hmapne : (descFiles s d).map (stateAt' s) ≠ [] := by
    intro h
    exact hne (List.map_eq_nil_iff.mp h)
  have hIconv : (∀ j ∈ descFiles s d, stateAt s j = some SelectionState.Included) ↔
      (∀ x ∈ (descFiles s d).map (stateAt' s), x = SelectionState.Included) := by
    rw [List.forall_mem_map]
    constructor
    · intro h j hj; exact stateAt'_eq (h j hj)
    · intro h j hj
      rw [stateAt_eq_some_stateAt' (descFiles_valid hwf hj), h j hj]
  have hEconv : (∀ j ∈ descFiles s d, stateAt s j = some SelectionState.Excluded) ↔
      (∀ x ∈ (descFiles s d).map (stateAt' s), x = SelectionState.Excluded) := by
    rw [List.forall_mem_map]
    constructor
    · intro h j hj; exact stateAt'_eq (h j hj)
    · intro h j hj
      rw [stateAt_eq_some_stateAt' (descFiles_valid hwf hj), h j hj]
  constructor
  · rintro ⟨hI, hE, hP⟩
    rw [hst]
    cases t with
    | Included =>
      rw [(aggStates_eq_included_iff _).mpr (hIconv.mp (hI.mp hst))]
    | Excluded =>
      rw [(aggStates_eq_excluded_iff_of_ne_nil hmapne).mpr (hEconv.mp (hE.mp hst))]
    | Partial =>
      obtain ⟨h1, h2⟩ := hP.mp hst
      rw [(aggStates_eq_partial_iff _).mpr
        ⟨fun hh => h1 (hIconv.mpr hh), fun hh => h2 (hEconv.mpr hh)⟩]
  · intro hagg
    rw [hst] at hagg ⊢
    have hteq : t = aggStates ((descFiles s d).map (stateAt' s)) :=
      Option.some_injective _ hagg
    refine ⟨?_, ?_, ?_⟩
    · constructor
      · intro h
        have := Option.some_injective _ h
        rw [this] at hteq
        exact hIconv.mpr ((aggStates_eq_included_iff _).mp hteq.symm)
      · intro h
        rw [hteq, (aggStates_eq_included_iff _).mpr (hIconv.mp h)]
    · constructor
      · intro h
        have := Option.some_injective _ h
        rw [this] at hteq
        exact hEconv.mpr ((aggStates_eq_excluded_iff_of_ne_nil hmapne).mp hteq.symm)
      · intro h
        rw [hteq, (aggStates_eq_excluded_iff_of_ne_nil hmapne).mpr (hEconv.mp h)]
    · constructor
      · intro h
        have := Option.some_injective _ h
        rw [this] at hteq
        obtain ⟨h1, h2⟩ := (aggStates_eq_partial_iff _).mp hteq.symm
        exact ⟨fun hh => h1 (hIconv.mp hh), fun hh => h2 (hEconv.mp hh)⟩
      · rintro ⟨h1, h2⟩
        rw [hteq, (aggStates_eq_partial_iff _).mpr
          ⟨fun hh => h1 (hIconv.mpr hh), fun hh => h2 (hEconv.mpr hh)⟩]

/-- `Consistent` in functional form. -/
lemma consistent_functional {s : NodeStore} (hwf : WellFormed s)
    (hc : Consistent s) {d : Nat} (hd : d < s.length)
    (hdir : isDirAt s d = true) :
    stateAt s d = some (aggStates ((descFiles s d).map (stateAt' s))) := by
  have hne := consistent_dirs_have_files hc d hd hdir
  obtain ⟨t, ht⟩ := stateAt_isSome hd
  exact (stateAt_eq_agg_iff hwf hne ht).mp ((hc d hd).1 hdir)

/-- `Consistent` from its functional form plus the leaf condition. -/
lemma consistent_of_functional {s : NodeStore} (hwf : WellFormed s)
    (hdf : EveryDirHasFile s)
    (hfun : ∀ d < s.length, isDirAt s d = true →
      stateAt s d = some (aggStates ((descFiles s d).map (stateAt' s))))
    (hleaf : ∀ j < s.length, isDirAt s j = false →
      ¬ stateAt s j = some SelectionState.Partial) :
    Consistent s := by
  intro d hd
  refine ⟨?_, fun hf => hleaf d hd hf⟩
  intro hdir
  have hne := hdf d hd hdir
  obtain ⟨t, ht⟩ := stateAt_isSome hd
  exact (stateAt_eq_agg_iff hwf hne ht).mpr (hfun d hd hdir)

lemma filterMap_some_eq_map {α β : Type} (f : α → β) :
    ∀ l : List α, l.filterMap (fun a => some (f a)) = l.map f := by
  intro l
  induction l with
  | nil => rfl
  | cons a l ih => simp [List.filterMap_cons, ih]

lemma childStates_eq_map {s : NodeStore} {d : Nat}
    (h : ∀ c ∈ childrenOf s d, c < s.length) :
    childStates s d = (childrenOf s d).map (stateAt' s) := by
  rw [childStates,
    List.filterMap_congr (fun c hc => stateAt_eq_some_stateAt' (h c hc)),
    filterMap_some_eq_map]

/-- A file is its own single descendant file. -/
lemma descFiles_file {s : NodeStore} (hwf : WellFormed s) {c : Nat}
    (hc : c < s.length) (hf : isDirAt s c = false) : descFiles s c = [c] := by
  rw [descFiles, subtree_unfold hwf hc, wf_file_no_children hwf hc hf]
  simp [hf]

/-- The descendant files of a directory are the concatenation of the
descendant files of its children, in stored order. -/
lemma descFiles_unfold {s : NodeStore} (hwf : WellFormed s) {d : Nat}
    (hd : d < s.length) (hdir : isDirAt s d = true) :
    descFiles s d = ((childrenOf s d).map (fun c => descFiles s c)).flatten := by
  rw [descFiles, subtree_unfold hwf hd]
  rw [List.filter_cons]
  simp only [hdir, Bool.not_true, if_neg]
  rw [List.filter_flatten, List.map_map]
  rfl

lemma toggle_shape (s : NodeStore) (i : Nat) : SameShape s (toggle s i) := by
  cases hn : s[i]? with
  | none =>
    have : toggle s i = s := by rw [toggle, hn]
    rw [this]
    exact sameShape_refl s
  | some n =>
    have : toggle s i =
        (ancestors_of (setStates s (subtreeIndices s s.length i) (flipState n.state)) i).foldl
          recomputeAt (setStates s (subtreeIndices s s.length i) (flipState n.state)) := by
      rw [toggle, hn]
    rw [this]
    exact sameShape_trans (setStates_shape _ _ s) (foldl_recompute_shape _ _)

/-- The heart of the invariant: a single `toggle` preserves state
consistency. -/
lemma toggle_preserves_consistent {s : NodeStore} (hwf : WellFormed s)
    (hc : Consistent s) (i : Nat) : Consistent (toggle s i) := by
  cases hn : s[i]? with
  | none =>
    have : toggle s i = s := by rw [toggle, hn]
    rw [this]
    exact hc
  | some n =>
    have hi : i < s.length := lt_length_of_getElem?_eq_some hn
    obtain ⟨hshape, hP1, hP3, hP2⟩ := toggle_char hwf hn
    have hdf : EveryDirHasFile s := consistent_dirs_have_files hc
    have hwf' : WellFormed (toggle s i) := hshape.wellFormed hwf
    have hlen : s.length = (toggle s i).length := hshape.1
    -- the functional invariant in the new store, by strong downward recursion
    -- on the tree (children have strictly larger indices)
    have hmain : ∀ (k : Nat), ∀ d, s.length - d ≤ k → d < s.length →
        isDirAt s d = true →
        stateAt (toggle s i) d =
          some (aggStates ((descFiles s d).map (stateAt' (toggle s i)))) := by
      intro k
      induction k with
      | zero => intro d hk hd _; omega
      | succ k ih =>
        intro d hk hd hdir
        have hne : descFiles s d ≠ [] := hdf d hd hdir
        have hmapne : (descFiles s d).map (stateAt' (toggle s i)) ≠ [] :=
          fun h => hne (List.map_eq_nil_iff.mp h)
        by_cases hdsub : d ∈ subtreeIndices s s.length i
        · -- (a) `d` lies in the toggled subtree: it and all its files carry
          -- the flipped state
          have hstd := hP1 d hdsub
          have hid : Desc s i d := desc_of_mem_subtree s.length i d hdsub
          have hagg : aggStates ((descFiles s d).map (stateAt' (toggle s i))) =
              flipState n.state := by
            refine aggStates_const hmapne (flipState_binary n.state) ?_
            rw [List.forall_mem_map]
            intro f hf
            have hfd : Desc s d f :=
              desc_of_mem_subtree s.length d f (mem_descFiles hf).1
            exact stateAt'_eq
              (hP1 f (mem_subtree_of_desc hwf (desc_trans hid hfd) hi))
          rw [hstd, hagg]
        · by_cases hdanc : d ∈ ancestors_of s i
          · -- (b) `d` is a strict ancestor: its state is the aggregate of its
            -- children's final states, which by recursion aggregate their own
            -- descendant files
            have hstd := hP2 d hdanc
            have hchvalid : ∀ c ∈ childrenOf (toggle s i) d, c < (toggle s i).length := by
              intro c hcmem
              rw [← (hshape.2 d).2.1] at hcmem
              rw [← hlen]
              exact (wf_child hwf hd hcmem).1
            have hcs : childStates (toggle s i) d =
                (childrenOf s d).map (stateAt' (toggle s i)) := by
              rw [childStates_eq_map hchvalid, (hshape.2 d).2.1]
            have hblocks : ∀ c ∈ childrenOf s d,
                stateAt' (toggle s i) c =
                  aggStates ((descFiles s c).map (stateAt' (toggle s i))) := by
              intro c hcmem
              have hcl : c < s.length := (wf_child hwf hd hcmem).1
              have hcgt : d < c := wf_child_gt hwf hd hcmem
              cases hdirc : isDirAt s c with
              | true =>
                exact stateAt'_eq (ih c (by omega) hcl hdirc)
              | false =>
                rw [descFiles_file hwf hcl hdirc]
                simp [aggStates_single]
            have hblocksne : ∀ b ∈ (childrenOf s d).map
                (fun c => (descFiles s c).map (stateAt' (toggle s i))), b ≠ [] := by
              intro b hb
              obtain ⟨c, hcmem, rfl⟩ := List.mem_map.mp hb
              have hcl : c < s.length := (wf_child hwf hd hcmem).1
              cases hdirc : isDirAt s c with
              | true =>
                intro hb0
                exact hdf c hcl hdirc (List.map_eq_nil_iff.mp hb0)
              | false =>
                rw [descFiles_file hwf hcl hdirc]
                intro hb0
                exact List.noConfusion hb0
            have hmm : List.map
                  (fun c => aggStates ((descFiles s c).map (stateAt' (toggle s i))))
                  (childrenOf s d) =
                List.map aggStates
                  ((childrenOf s d).map
                    (fun c => (descFiles s c).map (stateAt' (toggle s i)))) := by
              rw [List.map_map]
              rfl
            have hflat : (descFiles s d).map (stateAt' (toggle s i)) =
                ((childrenOf s d).map
                  (fun c => (descFiles s c).map (stateAt' (toggle s i)))).flatten := by
              rw [descFiles_unfold hwf hd hdir, List.map_flatten, List.map_map]
              rfl
            have hchain : aggStates (childStates (toggle s i) d) =
                aggStates ((descFiles s d).map (stateAt' (toggle s i))) := by
              rw [hcs, List.map_congr_left hblocks, hmm,
                aggStates_flatten _ hblocksne, ← hflat]
            rw [hstd, hchain]
          · -- (c) `d` is unrelated to the toggled subtree: nothing below it
            -- changed
            have hdi_not : ¬ Desc s i d := fun h =>
              hdsub (mem_subtree_of_desc hwf h hi)
            have hd_i_not : ¬ Desc s d i := by
              intro h
              by_cases hdeq : d = i
              · subst hdeq
                exact hdsub (mem_subtree_of_desc hwf (Desc.refl d) hi)
              · exact hdanc ((mem_ancestors_iff hwf i hi d).mpr ⟨h, hdeq⟩)
            have hstd := hP3 d hdsub hdanc
            have hfiles : ∀ f ∈ descFiles s d,
                stateAt (toggle s i) f = stateAt s f := by
              intro f hf
              have hdfd : Desc s d f :=
                desc_of_mem_subtree s.length d f (mem_descFiles hf).1
              refine hP3 f ?_ ?_
              · intro hfsub
                have hif : Desc s i f := desc_of_mem_subtree s.length i f hfsub
                rcases desc_connected hwf hif d hdfd with h | h
                · exact hdi_not h
                · exact hd_i_not (desc_trans h (Desc.refl i))
              · intro hfanc
                have : Desc s f i := ((mem_ancestors_iff hwf i hi f).mp hfanc).1
                exact hd_i_not (desc_trans hdfd this)
            rw [hstd, consistent_functional hwf hc hd hdir]
            congr 1
            congr 1
            refine List.map_congr_left ?_
            intro f hf
            rw [stateAt', stateAt', hfiles f hf]
    -- the leaf condition in the new store
    have hleaf : ∀ j, j < s.length → isDirAt s j = false →
        ¬ stateAt (toggle s i) j = some SelectionState.Partial := by
      intro j hj hfile
      by_cases hjsub : j ∈ subtreeIndices s s.length i
      · rw [hP1 j hjsub]
        intro h
        exact flipState_binary n.state (Option.some_injective _ h)
      · by_cases hjanc : j ∈ ancestors_of s i
        · exact absurd (wf_file_no_children hwf hj hfile)
            (ancestors_have_children hwf s.length i hi j hjanc)
        · rw [hP3 j hjsub hjanc]
          exact (hc j hj).2 hfile
    -- transport to the new store
    refine consistent_of_functional hwf' ?_ ?_ ?_
    · intro d hd hdir
      rw [← hshape.descFiles_eq d]
      refine hdf d (hlen ▸ hd) ?_
      rw [(hshape.2 d).2.2]
      exact hdir
    · intro d hd hdir
      rw [← hshape.descFiles_eq d]
      exact hmain s.length d (by omega) (hlen ▸ hd) (by rw [(hshape.2 d).2.2]; exact hdir)
    · intro j hj hfile
      exact hleaf j (hlen ▸ hj) (by rw [(hshape.2 j).2.2]; exact hfile)

/-! ### The claims -/

/-- C1: for every well-formed tree that satisfies the state-consistency
invariant, after any finite sequence of toggles (hence after each individual
toggle of the sequence, which is itself such a sequence) every directory's
state is `Included` iff all its descendant files are `Included`, `Excluded`
iff all are `Excluded`, `Partial` iff they are a mix, and no file is ever
`Partial`. -/
theorem c1_tri_state_invariant (s : NodeStore) (ts : List Nat)
    (hwf : WellFormed s) (hc : Consistent s) :
    Consistent (ts.foldl toggle s) := by
  induction ts generalizing s with
  | nil => exact hc
  | cons a rest ih =>
    rw [List.foldl_cons]
    exact ih (toggle s a) ((toggle_shape s a).wellFormed hwf)
      (toggle_preserves_consistent hwf hc a)

theorem c1_tri_state_invariant_witness :
    WellFormed sampleStore ∧ Consistent sampleStore ∧
      Consistent (List.foldl toggle sampleStore [1, 0, 2]) :=
  ⟨by decide, by decide,
    c1_tri_state_invariant sampleStore [1, 0, 2] (by decide) (by decide)⟩

/-- C2: toggling a valid node sets it to `Excluded` when it was `Included` or
`Partial` and to `Included` when it was `Excluded`, and when the node is a
directory every node of its subtree ends in that same resulting state. -/
theorem c2_toggle_semantics (s : NodeStore) (i : Nat) (n : Node)
    (hwf : WellFormed s) (hn : s[i]? = some n) :
    ((n.state = SelectionState.Included ∨ n.state = SelectionState.Partial) →
      stateAt (toggle s i) i = some SelectionState.Excluded) ∧
    (n.state = SelectionState.Excluded →
      stateAt (toggle s i) i = some SelectionState.Included) ∧
    (n.is_directory = true →
      ∀ j ∈ subtreeIndices s s.length i,
        stateAt (toggle s i) j = stateAt (toggle s i) i) := by
  have hi := lt_length_of_getElem?_eq_some hn
  obtain ⟨hshape, hP1, hP3, hP2⟩ := toggle_char hwf hn
  have hself : stateAt (toggle s i) i = some (flipState n.state) :=
    hP1 i (by rw [subtree_unfold hwf hi]; exact List.mem_cons_self i _)
  refine ⟨?_, ?_, ?_⟩
  · rintro (h | h) <;> rw [hself, h] <;> rfl
  · intro h
    rw [hself, h]
    rfl
  · intro _ j hj
    rw [hP1 j hj, hself]

theorem c2_toggle_semantics_witness :
    stateAt (toggle sampleStore 0) 0 = some SelectionState.Excluded :=
  (c2_toggle_semantics sampleStore 0
      { name := "root", is_directory := true, size := none,
        state := SelectionState.Partial, parent := none, children := [1, 2, 3] }
      (by decide) (by decide)).1 (Or.inr rfl)

/-- C3: toggling a leaf file (whose state, per the invariant, is never
`Partial`) twice restores its original state; toggling a `Partial` directory
twice does not restore `Partial` — the node and all its descendant files end
`Included`. -/
theorem c3_double_toggle (s : NodeStore) (i : Nat) (n : Node)
    (hwf : WellFormed s) (hn : s[i]? = some n) :
    (n.is_directory = false → n.state ≠ SelectionState.Partial →
      stateAt (toggle (toggle s i) i) i = some n.state) ∧
    (n.is_directory = true → n.state = SelectionState.Partial →
      stateAt (toggle (toggle s i) i) i = some SelectionState.Included ∧
      ∀ j ∈ subtreeIndices s s.length i, isDirAt s j = false →
        stateAt (toggle (toggle s i) i) j = some SelectionState.Included) := by
  have hi := lt_length_of_getElem?_eq_some hn
  obtain ⟨hshape, hP1, hP3, hP2⟩ := toggle_char hwf hn
  have hwf2 : WellFormed (toggle s i) := hshape.wellFormed hwf
  have hstate1 : stateAt (toggle s i) i = some (flipState n.state) :=
    hP1 i (by rw [subtree_unfold hwf hi]; exact List.mem_cons_self i _)
  obtain ⟨n', hn', hn'state⟩ := Option.map_eq_some'.mp hstate1
  obtain ⟨hshape2, hQ1, hQ3, hQ2⟩ := toggle_char hwf2 hn'
  have hsubeq : subtreeIndices (toggle s i) (toggle s i).length i =
      subtreeIndices s s.length i := by
    rw [← hshape.subtree_eq (toggle s i).length i, hshape.1]
  have hstate2 : stateAt (toggle (toggle s i) i) i =
      some (flipState (flipState n.state)) := by
    rw [← hn'state]
    refine hQ1 i ?_
    rw [hsubeq, subtree_unfold hwf hi]
    exact List.mem_cons_self i _
  refine ⟨?_, ?_⟩
  · intro _ hnp
    rw [hstate2]
    cases hst : n.state with
    | Included => rfl
    | Excluded => rfl
    | Partial => exact absurd hst hnp
  · intro _ hp
    refine ⟨by rw [hstate2, hp]; rfl, ?_⟩
    intro j hj _
    have : stateAt (toggle (toggle s i) i) j =
        some (flipState (flipState n.state)) := by
      rw [← hn'state]
      exact hQ1 j (by rw [hsubeq]; exact hj)
    rw [this, hp]
    rfl

theorem c3_double_toggle_witness :
    stateAt (toggle (toggle sampleStore 0) 0) 0 = some SelectionState.Included :=
  ((c3_double_toggle sampleStore 0
      { name := "root", is_directory := true, size := none,
        state := SelectionState.Partial, parent := none, children := [1, 2, 3] }
      (by decide) (by decide)).2 rfl rfl).1

/-- C4: filtering with the empty query returns the index of every node of the
store exactly once (and nothing else), ordered by depth-first pre-order with
children in their stored order. -/
theorem c4_empty_query_preorder (s : NodeStore) (hwf : WellFormed s) :
    Gathr.filter "" s = preorder s ∧
    ∀ i, (Gathr.filter "" s).count i = if i < s.length then 1 else 0 := by
  have hempty : Gathr.filter "" s = preorder s := by
    have hq : ("" : String).isEmpty = true := rfl
    rw [Gathr.filter, if_pos hq]
  exact ⟨hempty, fun i => by rw [hempty]; exact count_preorder hwf i⟩

theorem c4_empty_query_preorder_witness :
    Gathr.filter "" sampleStore = preorder sampleStore ∧
      (Gathr.filter "" sampleStore).count 2 =
        if 2 < sampleStore.length then 1 else 0 :=
  ⟨(c4_empty_query_preorder sampleStore (by decide)).1,
   (c4_empty_query_preorder sampleStore (by decide)).2 2⟩

/-- C5: the filter is a pure, deterministic function of the query and the
store — two calls with the same query on an unchanged store return identical
ordered sequences. -/
theorem c5_filter_deterministic (q : String) (s : NodeStore) :
    Gathr.filter q s = Gathr.filter q s := rfl

lemma clampCursor_lt {v : Nat} (hv : 0 < v) (i : Int) : clampCursor v i < v := by
  rw [clampCursor, if_neg (by omega)]
  have := Nat.min_le_right i.toNat (v - 1)
  omega

lemma clampCursor_zero (i : Int) : clampCursor 0 i = 0 := by
  rw [clampCursor, if_pos rfl]

/-- C6: every cursor operation clamps `selected_index` into
`[0, visible_count - 1]` when `visible_count > 0` and yields 0 when
`visible_count = 0`; in particular `move_cursor(+100)` with
`visible_count = 5` lands on index 4. -/
theorem c6_cursor_clamp (v h : Nat) (st : ViewState) (op : NavOp) :
    (0 < v → (applyNav v h st op).selected_index < v) ∧
    ((applyNav 0 h st op).selected_index = 0) ∧
    ((applyNav 5 h st (NavOp.move_cursor 100)).selected_index = 4) := by
  refine ⟨?_, ?_, ?_⟩
  · intro hv
    cases op <;> simp only [applyNav] <;> exact clampCursor_lt hv _
  · cases op <;> simp only [applyNav] <;> exact clampCursor_zero _
  · simp only [applyNav]
    rw [clampCursor, if_neg (by omega)]
    omega

theorem c6_cursor_clamp_witness :
    (applyNav 5 3 ⟨0, 0⟩ (NavOp.move_cursor 100)).selected_index < 5 :=
  (c6_cursor_clamp 5 3 ⟨0, 0⟩ (NavOp.move_cursor 100)).1 (by decide)

/-- C7: an out-of-range index makes `get_node` return the absent value rather
than fail, and makes `toggle` a complete no-op on the store. -/
theorem c7_out_of_range_noop (s : NodeStore) (i : Nat) (h : s.length ≤ i) :
    get_node s i = none ∧ toggle s i = s := by
  have hn : s[i]? = none := getElem?_eq_none_of_le h
  exact ⟨hn, by rw [toggle, hn]⟩

theorem c7_out_of_range_noop_witness :
    get_node sampleStore 99 = none ∧ toggle sampleStore 99 = sampleStore :=
  c7_out_of_range_noop sampleStore 99 (by decide)

/-- The single-pass stats fold computes the declarative counters. -/
lemma foldl_statsStep :
    ∀ (l : List Node) (acc : Stats),
      l.foldl statsStep acc =
        { included_files := acc.included_files +
            (l.filter (fun n => !n.is_directory &&
              decide (n.state = SelectionState.Included))).length,
          total_files := acc.total_files +
            (l.filter (fun n => !n.is_directory)).length,
          included_size := acc.included_size +
            ((l.filter (fun n => !n.is_directory &&
                decide (n.state = SelectionState.Included))).map
              (fun n => n.size.getD 0)).sum,
          filtered_count := acc.filtered_count } := by
  intro l
  induction l with
  | nil => intro acc; cases acc; simp
  | cons n l ih =>
    intro acc
    rw [List.foldl_cons, ih (statsStep acc n)]
    cases hdir : n.is_directory with
    | true =>
      simp [statsStep, hdir, List.filter_cons]
    | false =>
      cases hst : decide (n.state = SelectionState.Included) with
      | true =>
        have hst' := of_decide_eq_true hst
        simp [statsStep, hdir, hst', List.filter_cons, Stats.mk.injEq]
        omega
      | false =>
        have hst' := of_decide_eq_false hst
        simp [statsStep, hdir, hst', List.filter_cons, Stats.mk.injEq]
        omega

/-- C8: the stats are exactly — `included_files` counts non-directory nodes
whose state is `Included`, `total_files` counts all non-directory nodes,
`included_size` sums `size` over included files (directories contribute
nothing), and `filtered_count` is the length of the filtered result set;
including the concrete 3-file scenario of the spec. -/
theorem c8_stats_correct (s : NodeStore) (visible_items : List Nat) :
    (get_stats s visible_items).included_files =
      (s.filter (fun n => !n.is_directory &&
        decide (n.state = SelectionState.Included))).length ∧
    (get_stats s visible_items).total_files =
      (s.filter (fun n => !n.is_directory)).length ∧
    (get_stats s visible_items).included_size =
      ((s.filter (fun n => !n.is_directory &&
          decide (n.state = SelectionState.Included))).map
        (fun n => n.size.getD 0)).sum ∧
    (get_stats s visible_items).filtered_count = visible_items.length ∧
    get_stats sampleStore [1, 2, 3] =
      { included_files := 2, total_files := 3, included_size := 400,
        filtered_count := 3 } := by
  rw [get_stats, foldl_statsStep s ⟨0, 0, 0, 0⟩]
  refine ⟨by simp, by simp, by simp, by simp, by decide⟩

/-- C9 (evaluation of `draw_file_list` at the claim's failing input): with
`visible_items = [1, 2, 3]`, `scroll_offset = 1` and a three-row viewport
(`height = 5`), the spec places the cursor on `visible_items[selected_index]`;
instead, with `selected_index = 1` no rendered row carries the cursor marker,
and with `selected_index = 2` it lands on `visible_items[1]` rather than
`visible_items[2]`: `enumerate` runs before `skip`, so `display_index` is
already the absolute offset and adding `scroll_offset` again double-counts
the scroll. -/
theorem c9_cursor_row_misplaced :
    ((draw_file_list_items sampleStore [1, 2, 3] 1 1 5).map
        (fun it => (it.tree_index, it.cursor_indicator)) =
      [(2, "  "), (3, "  ")]) ∧
    ((draw_file_list_items sampleStore [1, 2, 3] 1 2 5).map
        (fun it => (it.tree_index, it.cursor_indicator)) =
      [(2, "► "), (3, "  ")]) ∧
    ((draw_file_list_items sampleStore [1, 2, 3] 0 1 5).map
        (fun it => (it.tree_index, it.cursor_indicator)) =
      [(1, "  "), (2, "► "), (3, "  ")]) := by
  decide

/-! ### The `format_file_size` properties -/

lemma fsUnits_length : fsUnits.length = 5 := rfl

lemma fsScale_snd_le (q : ℚ) (u : Nat) (hu : u ≤ 4) : (fsScale q u).2 ≤ 4 := by
  induction q, u using fsScale.induct with
  | case1 q u hguard ih =>
    rw [fsScale, dif_pos hguard]
    have h5 := fsUnits_length
    exact ih (by omega)
  | case2 q u hguard =>
    rw [fsScale, dif_neg hguard]
    exact hu

lemma fsScale_snd_ge (q : ℚ) (u : Nat) : u ≤ (fsScale q u).2 := by
  induction q, u using fsScale.induct with
  | case1 q u hguard ih =>
    rw [fsScale, dif_pos hguard]
    omega
  | case2 q u hguard =>
    rw [fsScale, dif_neg hguard]

lemma fsScale_of_lt {q : ℚ} (h : q < 1024) (u : Nat) : fsScale q u = (q, u) := by
  rw [fsScale, dif_neg]
  intro hand
  exact absurd hand.1 (by exact not_le.mpr h)

lemma fsScale_step {q : ℚ} (h : 1024 ≤ q) {u : Nat} (hu : u < 4) :
    fsScale q u = fsScale (q / 1024) (u + 1) := by
  rw [fsScale, dif_pos]
  refine ⟨h, ?_⟩
  have h5 := fsUnits_length
  omega

/-- `format_file_size` always renders a number followed by a space and the
reached unit. -/
lemma format_file_size_eq (size : Nat) :
    format_file_size size =
      (if (fsScale (size : ℚ) 0).2 = 0 then toString size
        else fmtOneDec (fsScale (size : ℚ) 0).1) ++ " " ++
        fsUnits.getD (fsScale (size : ℚ) 0).2 "" := by
  rw [format_file_size]
  by_cases hz : (fsScale (size : ℚ) 0).2 = 0
  · rw [if_pos hz, if_pos hz]
  · rw [if_neg hz, if_neg hz]

/-- Two strings ending in a space and a two-character unit whose first
character is not a space cannot equal a string ending in " B". -/
lemma unit_append_ne (a b u : String) (c1 c2 : Char)
    (hdata : u.data = [c1, c2]) (hc : c1 ≠ ' ') :
    a ++ " " ++ u ≠ b ++ " B" := by
  intro h
  have h2 : (a ++ " " ++ u).data.reverse.get? 1 =
      (b ++ " B").data.reverse.get? 1 := by rw [h]
  have hL : (a ++ " " ++ u).data = (a.data ++ [' ']) ++ u.data := rfl
  have hR : (b ++ " B").data = b.data ++ [' ', 'B'] := rfl
  have eL : ((a.data ++ [' ']) ++ [c1, c2]).reverse.get? 1 = some c1 := by
    rw [List.reverse_append]
    rw [show ([c1, c2].reverse : List Char) = [c2, c1] from rfl]
    rfl
  have eR : (b.data ++ [' ', 'B']).reverse.get? 1 = some ' ' := by
    rw [List.reverse_append]
    rw [show ([' ', 'B'].reverse : List Char) = ['B', ' '] from rfl]
    rfl
  rw [hL, hR, hdata, eL, eR] at h2
  exact hc (Option.some_injective _ h2)

/-- C10: for every size, the scaling loop of `format_file_size` stops after
at most four divisions (the final unit index is at most 4), the rendered
string carries one of the five units, and the output is exactly the unscaled
"<size> B" string precisely for sizes below 1024 bytes. -/
theorem c10_format_file_size (size : Nat) :
    (fsScale (size : ℚ) 0).2 ≤ 4 ∧
    (∃ u ∈ fsUnits, ∃ numPart : String,
      format_file_size size = numPart ++ " " ++ u) ∧
    (format_file_size size = toString size ++ " B" ↔ size < 1024) := by
  have hle : (fsScale (size : ℚ) 0).2 ≤ 4 := fsScale_snd_le _ 0 (by omega)
  refine ⟨hle, ?_, ?_⟩
  · refine ⟨fsUnits.getD (fsScale (size : ℚ) 0).2 "", ?_, ?_⟩
    · have h4 := hle
      set w := (fsScale (size : ℚ) 0).2 with hw
      interval_cases w <;> decide
    · exact ⟨_, format_file_size_eq size⟩
  · constructor
    · intro heq
      by_contra hge
      have hcast : (1024 : ℚ) ≤ (size : ℚ) := by
        have : (1024 : Nat) ≤ size := by omega
        exact_mod_cast this
      have hstep : fsScale (size : ℚ) 0 = fsScale ((size : ℚ) / 1024) 1 :=
        fsScale_step hcast (by omega)
      have hge1 : 1 ≤ (fsScale (size : ℚ) 0).2 := by
        rw [hstep]
        exact fsScale_snd_ge _ 1
      rw [format_file_size_eq size, if_neg (by omega)] at heq
      have h4 := hle
      set v := (fsScale (size : ℚ) 0).2 with hv
      interval_cases v
      · exact unit_append_ne _ _ _ 'K' 'B' (by decide) (by decide) heq
      · exact unit_append_ne _ _ _ 'M' 'B' (by decide) (by decide) heq
      · exact unit_append_ne _ _ _ 'G' 'B' (by decide) (by decide) heq
      · exact unit_append_ne _ _ _ 'T' 'B' (by decide) (by decide) heq
    · intro hlt
      have hcast : (size : ℚ) < 1024 := by exact_mod_cast hlt
      rw [format_file_size_eq size, fsScale_of_lt hcast 0]
      rw [show ((size : ℚ), 0).2 = 0 from rfl, if_pos rfl]
      rw [show fsUnits.getD (((size : ℚ), 0)).2 "" = "B" from rfl]
      rw [String.append_assoc]
      rw [show (" " ++ "B" : String) = " B" by decide]

end Gathr
